import Mathlib

/-!
Shallow embedding of the shockpkg core package manager (stream slicing
primitives, package tree nodes, the package catalog, and the install
pipeline's control flow), together with theorems settling the spec claims.

Sources embedded:
- `src/stream.ts` : `SliceStream`, `EmptyStream`, `WriterStream` (slicing logic)
- `src/package.ts`: `Package` (zipped descriptor accessors, construction invariant)
- `src/packages.ts`: `Packages` (catalog load/validate/index/diff)
- `src/manager.ts`: `Manager` (install transform chain, fetch, verify/commit,
  cleanup, receipt reading, retry)

JavaScript numbers that may be `NaN` are modelled as `Option Int`
(`none` = `NaN`); byte sequences as `List Nat`; maps as insertion-ordered
association lists; the filesystem effects of install/cleanup as explicit
action traces.
-/

namespace Shockpkg

/-- 1 MiB, the chunk size used by the stream test fixtures. -/
def MB : Nat := 1024 * 1024

/-!
## SliceStream (`src/stream.ts` lines 81-188)

`_transform` processes one chunk given the running `_transformed` count.
Buffer operations are mapped to list operations: `c.subarray(-i)` (with
`i < 0`) is `c.drop (-i).toNat`, `c.subarray(0, r)` is `c.take r.toNat`,
`c.subarray()` is `c` itself.  The branch where the code mutates
`this._transformed -= i; c = c.subarray(-i); i = 0` is inlined, so the
positive-size case appears twice (skip and no-skip paths), with `i = 0`
substituted in the skip path.
-/

/-- One `SliceStream._transform` call: given `start`/`size` (constructor
arguments), the current `_transformed` value `tr` and the chunk `c`,
returns the new `_transformed` value and the bytes pushed. -/
def sliceTransform (start size tr : Int) (c : List Nat) : Int × List Nat :=
  -- If size is 0, then nothing to do.
  if size = 0 then (tr + c.length, [])
  else if size < 0 then
    -- From start to infinity.
    let i := tr - start
    if i + c.length ≤ 0 then (tr + c.length, [])
    else if i < 0 then
      let c2 := c.drop (-i).toNat
      (tr - i + c2.length, c2)
    else (tr + c.length, c)
  else if start + size ≤ tr then
    -- Discard if all past end.
    (tr + c.length, [])
  else
    let i := tr - start
    if i + c.length ≤ 0 then (tr + c.length, [])
    else if i < 0 then
      -- Skip over any data before start (tr -= i; c = c.subarray(-i); i = 0).
      let c2 := c.drop (-i).toNat
      let r := size
      if r < c2.length then (tr - i + r + (c2.length - r), c2.take r.toNat)
      else (tr - i + c2.length, c2)
    else
      let r := size - i
      if r < c.length then (tr + r + (c.length - r), c.take r.toNat)
      else (tr + c.length, c)

/-- Run `SliceStream` over a list of chunks from a given `_transformed`
state, concatenating all pushed output. -/
def sliceRunFrom (start size : Int) : Int → List (List Nat) → List Nat
  | _, [] => []
  | tr, c :: cs =>
    let s := sliceTransform start size tr c
    s.2 ++ sliceRunFrom start size s.1 cs

/-- Run a fresh `SliceStream start size` over a chunked input. -/
def sliceRun (start size : Int) (chunks : List (List Nat)) : List Nat :=
  sliceRunFrom start size 0 chunks

/-- The specified behaviour of the byte-range filter, stated on the
un-chunked input: positions `[start, start+size)` for positive size,
nothing for zero size, open-ended tail for negative size. -/
def sliceSpec (start size : Int) (bytes : List Nat) : List Nat :=
  if size = 0 then []
  else if size < 0 then bytes.drop start.toNat
  else (bytes.drop start.toNat).take size.toNat

/-- One 1 MiB chunk of the deterministic cyclic-byte input used by the
stream tests (`Reader` in the stream test file): byte `i` is `i % 256`. -/
def cyc : List Nat := (List.range MB).map (· % 256)

/-- The 5 x 1 MiB cyclic-byte input: five identical chunks. -/
def cyclicChunks : List (List Nat) := List.replicate 5 cyc

/-- `EmptyStream._read` pushes only end-of-stream: the stream yields no
bytes at all (`src/stream.ts` lines 193-201). -/
def emptyStreamOutput : List Nat := []

/-! ### SliceStream behaviour lemmas -/

theorem sliceTransform_zero (start tr : Int) (c : List Nat) :
    sliceTransform start 0 tr c = (tr + c.length, []) := by
  simp [sliceTransform]

theorem sliceTransform_neg {size : Int} (h : size < 0) (start : Int) (n : Nat)
    (c : List Nat) :
    sliceTransform start size n c
      = ((n : Int) + c.length, c.drop (start - n).toNat) := by
  have hsz : size ≠ 0 := by omega
  simp only [sliceTransform, if_neg hsz, if_pos h, neg_sub]
  split_ifs with h1 h2
  · have hk : c.length ≤ (start - (n : Int)).toNat := by omega
    rw [List.drop_eq_nil_of_le hk]
  · refine Prod.ext ?_ rfl
    have hk : (start - (n : Int)).toNat ≤ c.length := by omega
    simp only [List.length_drop]
    omega
  · have hk : (start - (n : Int)).toNat = 0 := by omega
    rw [hk, List.drop_zero]

theorem sliceTransform_pos {size : Int} (h : 0 < size) (start : Int) (n : Nat)
    (c : List Nat) :
    sliceTransform start size n c
      = ((n : Int) + c.length,
          (c.drop (start - n).toNat).take ((start + size - max start n).toNat))
      := by
  have hsz : size ≠ 0 := by omega
  have hsl : ¬size < 0 := by omega
  have hd : ∀ k : Nat, (c.drop k).length = c.length - k := fun k =>
    List.length_drop k c
  simp only [sliceTransform, if_neg hsz, if_neg hsl, neg_sub]
  split_ifs with h0 h1 h2 h3 h4
  · -- all past end: start + size ≤ n
    have hk : (start + size - max start (n : Int)).toNat = 0 := by omega
    rw [hk, List.take_zero]
  · -- all before start: n + c.length ≤ start
    have hk : c.length ≤ (start - (n : Int)).toNat := by omega
    rw [List.drop_eq_nil_of_le hk, List.take_nil]
  · -- skip path, chunk longer than size
    have hm : max start (n : Int) = start := by omega
    rw [Prod.mk.injEq]
    refine ⟨?_, ?_⟩
    · simp only [hd]
      omega
    · rw [hm]
      have hk : (start + size - start).toNat = size.toNat := by omega
      rw [hk]
  · -- skip path, chunk within size
    have hm : max start (n : Int) = start := by omega
    rw [Prod.mk.injEq]
    refine ⟨?_, ?_⟩
    · simp only [hd]
      omega
    · rw [hm]
      have hlen : ((c.drop (start - (n : Int)).toNat).length : Int) ≤ size := by
        omega
      refine (List.take_of_length_le ?_).symm
      omega
  · -- no-skip path, chunk longer than remaining
    have hm : max start (n : Int) = (n : Int) := by omega
    have hk : (start - (n : Int)).toNat = 0 := by omega
    rw [Prod.mk.injEq]
    refine ⟨by omega, ?_⟩
    rw [hk, List.drop_zero, hm]
    have hr : (size - ((n : Int) - start)).toNat
        = (start + size - (n : Int)).toNat := by omega
    rw [hr]
  · -- no-skip path, chunk within remaining
    have hm : max start (n : Int) = (n : Int) := by omega
    have hk : (start - (n : Int)).toNat = 0 := by omega
    rw [hk, List.drop_zero, hm]
    rw [Prod.mk.injEq]
    refine ⟨rfl, ?_⟩
    refine (List.take_of_length_le ?_).symm
    omega

theorem sliceRunFrom_zero (start : Int) :
    ∀ (cs : List (List Nat)) (tr : Int), sliceRunFrom start 0 tr cs = [] := by
  intro cs
  induction cs with
  | nil => intro tr; rfl
  | cons c cs ih =>
    intro tr
    simp only [sliceRunFrom, sliceTransform_zero]
    exact ih _

theorem sliceRunFrom_neg {size : Int} (h : size < 0) (start : Int) :
    ∀ (cs : List (List Nat)) (n : Nat),
      sliceRunFrom start size n cs = cs.flatten.drop (start - n).toNat := by
  intro cs
  induction cs with
  | nil => intro n; simp [sliceRunFrom]
  | cons c cs ih =>
    intro n
    have hcast : ((n : Int) + c.length) = ((n + c.length : Nat) : Int) := by
      push_cast; ring
    simp only [sliceRunFrom, sliceTransform_neg h, hcast, ih (n + c.length),
      List.flatten_cons]
    rw [List.drop_append_eq_append_drop]
    have ha : (start - ((n + c.length : Nat) : Int)).toNat
        = (start - (n : Int)).toNat - c.length := by omega
    rw [ha]

theorem sliceRunFrom_pos {size : Int} (h : 0 < size) (start : Int) :
    ∀ (cs : List (List Nat)) (n : Nat),
      sliceRunFrom start size n cs
        = (cs.flatten.drop (start - n).toNat).take
            ((start + size - max start n).toNat) := by
  intro cs
  induction cs with
  | nil => intro n; simp [sliceRunFrom]
  | cons c cs ih =>
    intro n
    have hcast : ((n : Int) + c.length) = ((n + c.length : Nat) : Int) := by
      push_cast; ring
    have hlen : (List.drop (start - (n : Int)).toNat c).length
        = c.length - (start - (n : Int)).toNat := List.length_drop _ _
    simp only [sliceRunFrom, sliceTransform_pos h, hcast, ih (n + c.length),
      List.flatten_cons]
    rw [List.drop_append_eq_append_drop, List.take_append_eq_append_take]
    have ha : (start - ((n + c.length : Nat) : Int)).toNat
        = (start - (n : Int)).toNat - c.length := by omega
    have hb : (start + size - max start ((n + c.length : Nat) : Int)).toNat
        = (start + size - max start (n : Int)).toNat
          - (List.drop (start - (n : Int)).toNat c).length := by
      rw [hlen]
      omega
    rw [ha, hb]

/-- The general chunking-invariance of the byte-range filter: over any
chunking of any input, `SliceStream` emits exactly the specified slice. -/
theorem sliceRun_eq_spec (start size : Int) (hs : 0 ≤ start)
    (chunks : List (List Nat)) :
    sliceRun start size chunks = sliceSpec start size chunks.flatten := by
  unfold sliceRun sliceSpec
  rcases lt_trichotomy size 0 with hlt | heq | hgt
  · rw [if_neg (by omega), if_pos hlt]
    have h0 := sliceRunFrom_neg hlt start chunks 0
    simpa using h0
  · subst heq
    rw [if_pos rfl, sliceRunFrom_zero]
  · rw [if_neg (by omega), if_neg (by omega)]
    have h0 := sliceRunFrom_pos hgt start chunks 0
    have hmax : max start ((0 : Nat) : Int) = start := by
      simp [max_eq_left hs]
    simp only [Nat.cast_zero, sub_zero, hmax] at h0
    rw [h0]
    congr 1
    omega

/-! ### Concrete cyclic-input facts -/

theorem cyc_length : cyc.length = MB := by
  simp [cyc]

theorem cyclicChunks_flatten :
    cyclicChunks.flatten = cyc ++ (cyc ++ (cyc ++ (cyc ++ (cyc ++ [])))) := rfl

theorem drop_cyc (m : Nat) (X : List Nat) :
    (cyc ++ X).drop (MB + m) = X.drop m := by
  rw [List.drop_append_eq_append_drop, cyc_length]
  rw [List.drop_eq_nil_of_le (by rw [cyc_length]; omega)]
  simp

theorem take_cyc_ten : cyc.take 10 = [0, 1, 2, 3, 4, 5, 6, 7, 8, 9] := by
  rw [cyc, ← List.map_take, List.take_range]
  have hmin : min 10 MB = 10 := by
    rw [MB]; omega
  rw [hmin]
  decide

/-- C2: for every input byte sequence and every chunking of it, the
byte-range filter `SliceStream(start, size)` emits exactly the input bytes
in positions `[start, start+size)` when `size > 0`, nothing when
`size = 0`, and everything from `start` onward when `size < 0`; in
particular, over the 5 x 1 MiB cyclic-byte input, `start = 2 MiB`,
`size = 10` yields bytes `[0..9]`; `size = 0` yields nothing; and
`start = 4 MiB + 1`, `size = -1` yields exactly the `MiB - 1` trailing
bytes. -/
theorem slice_stream_spec :
    (∀ (start size : Int) (chunks : List (List Nat)), 0 ≤ start →
        sliceRun start size chunks = sliceSpec start size chunks.flatten)
    ∧ sliceRun ((2 * MB : Nat) : Int) 10 cyclicChunks
        = [0, 1, 2, 3, 4, 5, 6, 7, 8, 9]
    ∧ sliceRun ((2 * MB : Nat) : Int) 0 cyclicChunks = []
    ∧ sliceRun ((4 * MB + 1 : Nat) : Int) (-1) cyclicChunks = cyc.drop 1
    ∧ (sliceRun ((4 * MB + 1 : Nat) : Int) (-1) cyclicChunks).length
        = MB - 1 := by
  have hgen : ∀ (start size : Int) (chunks : List (List Nat)), 0 ≤ start →
      sliceRun start size chunks = sliceSpec start size chunks.flatten :=
    fun start size chunks hs => sliceRun_eq_spec start size hs chunks
  have htail : sliceRun ((4 * MB + 1 : Nat) : Int) (-1) cyclicChunks
      = cyc.drop 1 := by
    rw [hgen _ _ _ (Int.natCast_nonneg _)]
    simp only [sliceSpec, if_neg (by norm_num : (-1 : Int) ≠ 0),
      if_pos (by norm_num : (-1 : Int) < 0), Int.toNat_natCast]
    rw [cyclicChunks_flatten,
      show 4 * MB + 1 = MB + (MB + (MB + (MB + 1))) by ring,
      drop_cyc, drop_cyc, drop_cyc, drop_cyc, List.append_nil]
  refine ⟨hgen, ?_, ?_, htail, ?_⟩
  · rw [hgen _ _ _ (Int.natCast_nonneg _)]
    simp only [sliceSpec, if_neg (by norm_num : (10 : Int) ≠ 0),
      if_neg (by norm_num : ¬(10 : Int) < 0), Int.toNat_natCast]
    rw [show Int.toNat 10 = 10 from rfl]
    rw [cyclicChunks_flatten, show 2 * MB = MB + (MB + 0) by ring,
      drop_cyc, drop_cyc, List.drop_zero, List.take_append_eq_append_take]
    have h0 : 10 - cyc.length = 0 := by rw [cyc_length, MB]
    rw [h0, List.take_zero, List.append_nil, take_cyc_ten]
  · exact sliceRunFrom_zero _ cyclicChunks 0
  · rw [htail, List.length_drop, cyc_length]

/-- Witness for the hypothesis of the universally quantified part of
`slice_stream_spec`, applied at a small concrete chunked input. -/
theorem slice_stream_spec_witness :
    (0 : Int) ≤ 1
      ∧ sliceRun 1 2 [[5, 6], [7]]
          = sliceSpec 1 2 ([[5, 6], [7]] : List (List Nat)).flatten :=
  ⟨by decide, slice_stream_spec.1 1 2 [[5, 6], [7]] (by decide)⟩

/-!
## JS number coercion

`Package.getZippedCompression`/`getZippedSlice` apply unary `+` and
`Packages._validateFormat` applies `Number` to strings.  JS numbers that
can be `NaN` are modelled as `Option Int` with `none` for `NaN`.
-/

/-- Strip leading and trailing whitespace (JS `Number` trims before
parsing). -/
def trimChars (cs : List Char) : List Char :=
  ((cs.dropWhile fun c => c.isWhitespace).reverse.dropWhile
      fun c => c.isWhitespace).reverse

/-- Value of a decimal digit string. -/
def digitsVal (cs : List Char) : Int :=
  cs.foldl (fun n c => n * 10 + ((c.toNat : Int) - 48)) 0

/-- Modelled from the host platform: the JS `Number()` string coercion on
the fragment relevant to catalog data: surrounding whitespace is trimmed,
the empty string is `0`, optionally signed decimal integer literals give
their value, and all other strings give `NaN` (`none`).  (Float, exponent
and hex forms, which no catalog field uses, also map to `none`.) -/
def jsNumL (cs : List Char) : Option Int :=
  let t := trimChars cs
  if t = [] then some 0
  else if t.all fun c => c.isDigit then some (digitsVal t)
  else
    match t with
    | '-' :: rest =>
      if rest ≠ [] && rest.all fun c => c.isDigit then
        some (-(digitsVal rest))
      else none
    | '+' :: rest =>
      if rest ≠ [] && rest.all fun c => c.isDigit then some (digitsVal rest)
      else none
    | _ => none

/-- JS `Number()` on a string. -/
def jsNum (s : String) : Option Int := jsNumL s.data

/-- JS `String.prototype.split` with a single-character separator. -/
def jsSplit (sep : Char) (z : String) : List String :=
  (z.data.splitOn sep).map fun cs => ⟨cs⟩

/-- JS `+` on two numbers: `NaN` absorbs. -/
def jsAdd : Option Int → Option Int → Option Int
  | some a, some b => some (a + b)
  | _, _ => none

/-- JS array index followed by unary `+`: a missing element is
`undefined`, and `+undefined` is `NaN`. -/
def jsNumAt (parts : List String) (i : Nat) : Option Int :=
  match parts.get? i with
  | none => none
  | some s => jsNum s

/-!
## Package tree node (`src/package.ts`)

A node's own descriptor fields.  The `Manager.install` ancestor walk
produces the root-to-target list of nodes, which the theorems below take
directly as a `List Pkg`.
-/

structure Pkg where
  name : String
  file : String
  size : Int
  sha256 : String
  sha1 : String
  md5 : String
  source : String
  zipped : Option String
deriving DecidableEq

/-- `Package.getZippedCompression`: `+zipped.split('-')[0]`. -/
def getZippedCompression (p : Pkg) : Except String (Option Int) :=
  match p.zipped with
  | none => .error "Not a child package"
  | some z => .ok (jsNum ((jsSplit '-' z).headD ""))

/-- `Package.getZippedSlice`: `[+parts[1], +parts[2]]`. -/
def getZippedSlice (p : Pkg) : Except String (Option Int × Option Int) :=
  match p.zipped with
  | none => .error "Not a child package"
  | some z =>
    let parts := jsSplit '-' z
    .ok (jsNumAt parts 1, jsNumAt parts 2)

/-- A stream transform appearing in the install pipeline: a
`SliceStream(start, size)` or a raw-inflate decompressor. -/
inductive Transform where
  | sliceStream (start size : Option Int)
  | inflateRaw
deriving DecidableEq

/-- `Package.getZippedDecompressor`: method 0 is pass-through (`null`),
method 8 is `createInflateRaw()`, anything else (including `NaN`) throws. -/
def getZippedDecompressor (p : Pkg) : Except String (Option Transform) :=
  match getZippedCompression p with
  | .error e => .error e
  | .ok m =>
    if m = some 0 then .ok none
    else if m = some 8 then .ok (some .inflateRaw)
    else .error "Unsupported zipped compression"

/-- `Except` success test (no payload inspection). -/
def isOkE {ε α : Type} : Except ε α → Bool
  | .ok _ => true
  | .error _ => false

/-!
## Install transform-chain construction (`src/manager.ts` lines 634-662)

`packages` is the root-to-target ancestor list; the loops start at index 1
(the root's direct child).  The first loop merges slices into the
accumulator until a decompressor is found; the second maps each remaining
ancestor to a `SliceStream` plus optional decompressor.
-/

/-- The first `while` loop: threads the slice accumulator, stops (returning
the unprocessed remainder) as soon as a node yields a decompressor. -/
def installLoop1 :
    Option (Option Int × Option Int) → List Pkg →
    Except String
      (Option (Option Int × Option Int) × List Transform × List Pkg)
  | slice, [] => .ok (slice, [], [])
  | slice, p :: rest =>
    match getZippedSlice p with
    | .error e => .error e
    | .ok sl =>
      let slice' := some (match slice with
        | some acc => (jsAdd acc.1 sl.1, sl.2)
        | none => sl)
      match getZippedDecompressor p with
      | .error e => .error e
      | .ok (some t) => .ok (slice', [t], rest)
      | .ok none => installLoop1 slice' rest

/-- The second `while` loop: a `SliceStream` per remaining ancestor,
followed by its decompressor when non-null. -/
def installLoop2 : List Pkg → Except String (List Transform)
  | [] => .ok []
  | p :: rest =>
    match getZippedSlice p with
    | .error e => .error e
    | .ok sl =>
      match getZippedDecompressor p with
      | .error e => .error e
      | .ok d =>
        match installLoop2 rest with
        | .error e => .error e
        | .ok ts =>
          .ok (Transform.sliceStream sl.1 sl.2 ::
            (match d with | some t => t :: ts | none => ts))

/-- The whole transform-chain construction of `Manager.install` over the
root-to-target list. -/
def installTransformChain (packages : List Pkg) :
    Except String (Option (Option Int × Option Int) × List Transform) :=
  match installLoop1 none (packages.drop 1) with
  | .error e => .error e
  | .ok r =>
    match installLoop2 r.2.2 with
    | .error e => .error e
    | .ok ts2 => .ok (r.1, r.2.1 ++ ts2)

/-!
### Spec-side description of the transform chain (claim C1's wording)
-/

/-- The slice offset a node contributes (spec side). -/
def sliceOffOf (p : Pkg) : Option Int :=
  match getZippedSlice p with
  | .ok s => s.1
  | .error _ => none

/-- The slice length a node contributes (spec side). -/
def sliceLenOf (p : Pkg) : Option Int :=
  match getZippedSlice p with
  | .ok s => s.2
  | .error _ => none

/-- The decompressor a node contributes (spec side). -/
def decompOf (p : Pkg) : Option Transform :=
  match getZippedDecompressor p with
  | .ok d => d
  | .error _ => none

/-- One accumulator-merge step, per the spec's words: add the node's
offset to the running offset, replace the length with the node's length;
initialize with the node's slice when the accumulator is null. -/
def sliceMergeStep (acc : Option (Option Int × Option Int)) (p : Pkg) :
    Option (Option Int × Option Int) :=
  some (match acc with
    | some a => (jsAdd a.1 (sliceOffOf p), sliceLenOf p)
    | none => (sliceOffOf p, sliceLenOf p))

/-- Merging a run of ancestors' slices into a single accumulator. -/
def mergeSlices (cs : List Pkg) : Option (Option Int × Option Int) :=
  cs.foldl sliceMergeStep none

/-- Spec side: each remaining ancestor contributes a byte-range filter
parameterized by its own (offset, length), then its own decompressor when
non-null, in chain order. -/
def tailTransforms (ps : List Pkg) : List Transform :=
  ps.flatMap fun p =>
    Transform.sliceStream (sliceOffOf p) (sliceLenOf p) ::
      (match decompOf p with | some t => [t] | none => [])

/-- Spec side: the whole chain description of claim C1 over the chain from
the root's direct child to the target: merge slices while no decompression
layer is open; at the first node with a decompressor, append it and stop
merging; remaining ancestors contribute range filters and decompressors. -/
def specTransformChain (chain : List Pkg) :
    Option (Option Int × Option Int) × List Transform :=
  match chain.drop ((chain.takeWhile
      fun p => (decompOf p).isNone).length) with
  | [] => (mergeSlices chain, [])
  | d :: later =>
    (mergeSlices ((chain.takeWhile fun p => (decompOf p).isNone) ++ [d]),
      (match decompOf d with | some t => [t] | none => [])
        ++ tailTransforms later)

/-! ### Transform-chain lemmas -/

theorem installLoop1_spec :
    ∀ (chain : List Pkg),
      (∀ p ∈ chain,
        isOkE (getZippedSlice p) ∧ isOkE (getZippedDecompressor p) = true) →
      ∀ acc, installLoop1 acc chain = .ok
        (match chain.drop ((chain.takeWhile
            fun p => (decompOf p).isNone).length) with
         | [] => (chain.foldl sliceMergeStep acc, [], [])
         | d :: later =>
           (((chain.takeWhile fun p => (decompOf p).isNone) ++ [d]).foldl
               sliceMergeStep acc,
             (match decompOf d with | some t => [t] | none => []), later))
  | [], _, acc => rfl
  | p :: rest, h, acc => by
    obtain ⟨hs, hd⟩ := h p (List.mem_cons_self p rest)
    cases hsl : getZippedSlice p with
    | error e => rw [hsl] at hs; simp [isOkE] at hs
    | ok sl =>
      cases hdec : getZippedDecompressor p with
      | error e => rw [hdec] at hd; simp [isOkE] at hd
      | ok d =>
        obtain ⟨sl1, sl2⟩ := sl
        have hoff : sliceOffOf p = sl1 := by simp [sliceOffOf, hsl]
        have hlen : sliceLenOf p = sl2 := by simp [sliceLenOf, hsl]
        have hdec' : decompOf p = d := by simp [decompOf, hdec]
        cases d with
        | some t =>
          simp only [installLoop1, hsl, hdec, List.takeWhile_cons, hdec',
            Option.isNone_some, Bool.false_eq_true, if_false,
            List.length_nil, List.drop_zero, List.nil_append,
            List.foldl_cons, List.foldl_nil, sliceMergeStep, hoff, hlen]
        | none =>
          have ih := installLoop1_spec rest
            (fun q hq => h q (List.mem_cons_of_mem p hq))
            (sliceMergeStep acc p)
          simp only [sliceMergeStep, hoff, hlen] at ih
          cases acc with
          | none =>
            simp only [installLoop1, hsl, hdec, List.takeWhile_cons, hdec',
              Option.isNone_none, if_true, List.length_cons,
              List.drop_succ_cons, List.cons_append, List.foldl_cons,
              sliceMergeStep, hoff, hlen]
            exact ih
          | some a =>
            simp only [installLoop1, hsl, hdec, List.takeWhile_cons, hdec',
              Option.isNone_none, if_true, List.length_cons,
              List.drop_succ_cons, List.cons_append, List.foldl_cons,
              sliceMergeStep, hoff, hlen]
            exact ih

theorem installLoop2_spec :
    ∀ (ps : List Pkg),
      (∀ p ∈ ps,
        isOkE (getZippedSlice p) ∧ isOkE (getZippedDecompressor p) = true) →
      installLoop2 ps = .ok (tailTransforms ps)
  | [], _ => rfl
  | p :: rest, h => by
    obtain ⟨hs, hd⟩ := h p (List.mem_cons_self p rest)
    cases hsl : getZippedSlice p with
    | error e => rw [hsl] at hs; simp [isOkE] at hs
    | ok sl =>
      cases hdec : getZippedDecompressor p with
      | error e => rw [hdec] at hd; simp [isOkE] at hd
      | ok d =>
        obtain ⟨sl1, sl2⟩ := sl
        have ih := installLoop2_spec rest
          (fun q hq => h q (List.mem_cons_of_mem p hq))
        have hoff : sliceOffOf p = sl1 := by simp [sliceOffOf, hsl]
        have hlen : sliceLenOf p = sl2 := by simp [sliceLenOf, hsl]
        have hdec' : decompOf p = d := by simp [decompOf, hdec]
        simp only [installLoop2, hsl, hdec, ih, tailTransforms,
          List.flatMap_cons, hoff, hlen, hdec']
        cases d <;> rfl

/-- C1: walking the ancestor chain from the root's direct child to the
target, slices are merged into a single accumulator (offsets add, length
replaced) until the first node with a non-null decompressor, which is
appended; every remaining ancestor contributes a byte-range filter with
its own (offset, length) followed by its own decompressor when non-null,
in chain order. -/
theorem install_transform_chain_correct (root : Pkg) (chain : List Pkg)
    (h : ∀ p ∈ chain,
      isOkE (getZippedSlice p) ∧ isOkE (getZippedDecompressor p) = true) :
    installTransformChain (root :: chain) = .ok (specTransformChain chain) := by
  have h1 := installLoop1_spec chain h none
  cases hdrop : chain.drop ((chain.takeWhile
      fun p => (decompOf p).isNone).length) with
  | nil =>
    simp only [hdrop] at h1
    simp [installTransformChain, h1, specTransformChain, hdrop,
      installLoop2, mergeSlices]
  | cons d later =>
    simp only [hdrop] at h1
    have hsub : ∀ q ∈ later,
        isOkE (getZippedSlice q) ∧ isOkE (getZippedDecompressor q) = true := by
      intro q hq
      refine h q ?_
      exact List.drop_subset _ chain (hdrop ▸ List.mem_cons_of_mem d hq)
    have h2 := installLoop2_spec later hsub
    simp [installTransformChain, h1, h2, specTransformChain, hdrop,
      mergeSlices]

/-- Witness for `install_transform_chain_correct`: a three-level chain, a
stored child (`0-10-5`) inside a deflated child (`8-3-2`). -/
theorem install_transform_chain_correct_witness :
    installTransformChain
        [⟨"r", "r.bin", 100, "h2", "h1", "h0", "http://x/r", none⟩,
         ⟨"a", "a.bin", 50, "a2", "a1", "a0", "r/a", some "0-10-5"⟩,
         ⟨"b", "b.bin", 20, "b2", "b1", "b0", "a/b", some "8-3-2"⟩]
      = .ok (specTransformChain
        [⟨"a", "a.bin", 50, "a2", "a1", "a0", "r/a", some "0-10-5"⟩,
         ⟨"b", "b.bin", 20, "b2", "b1", "b0", "a/b", some "8-3-2"⟩]) :=
  install_transform_chain_correct _ _ (by decide)

/-!
## Catalog format validation (`src/packages.ts`, `_validateFormat`)
-/

/-- `Packages.FORMAT`, the engine's supported catalog format version. -/
def FORMAT : String := "1.2"

/-- JS strict equality `===` on numbers: `NaN` equals nothing (not even
itself). -/
def jsStrictEq : Option Int → Option Int → Bool
  | some a, some b => a == b
  | _, _ => false

/-- JS `<` on numbers: any comparison involving `NaN` is false. -/
def jsLt : Option Int → Option Int → Bool
  | some a, some b => a < b
  | _, _ => false

/-- `Packages._validateFormat`: split both the supported and the given
version string on `'.'`, map through `Number`, then check part count,
strict major equality, and minor non-inferiority. -/
def validateFormat (format : String) : Except String Unit :=
  let version := (jsSplit '.' FORMAT).map jsNum
  let parts := (jsSplit '.' format).map jsNum
  if parts.length ≠ 2 then
    .error ("Invalid format version value: " ++ format)
  else if !(jsStrictEq (parts.getD 0 none) (version.getD 0 none)) then
    .error ("Invalid format version major: " ++ format)
  else if jsLt (parts.getD 1 none) (version.getD 1 none) then
    .error ("Invalid format version minor: " ++ format)
  else .ok ()

/-- A non-empty all-decimal-digits string: the claim's notion of a
non-negative integer literal. -/
def isNonNegIntStr (s : String) : Bool :=
  !s.data.isEmpty && s.data.all fun c => c.isDigit

/-- The format gate exactly as claim C5 words it: the string parses as two
non-negative integers `MAJOR.MINOR` with `MAJOR = 1` and `MINOR ≥ 2`. -/
def claimFormatGate (format : String) : Bool :=
  match jsSplit '.' format with
  | [a, b] =>
    isNonNegIntStr a && isNonNegIntStr b
      && (digitsVal a.data == 1) && decide (2 ≤ digitsVal b.data)
  | _ => false

/-- Counterexample to C5: the format string `"1.x"` is not two
non-negative integers, yet `_validateFormat` accepts it: `Number('x')` is
`NaN` and `NaN < 2` is false, so the minor check does not throw. -/
theorem validateFormat_claim_false :
    validateFormat "1.x" = .ok () ∧ claimFormatGate "1.x" = false := by
  constructor <;> rfl

theorem exists_pair_list_iff {α : Type} (a b : α) (P : α → α → Prop) :
    (∃ x y, ([a, b] : List α) = [x, y] ∧ P x y) ↔ P a b := by
  constructor
  · rintro ⟨x, y, hxy, h⟩
    injection hxy with h1 h2
    injection h2 with h2 _
    subst h1; subst h2
    exact h
  · intro h
    exact ⟨a, b, rfl, h⟩

theorem validateFormat_core_iff (format : String) (na nb : Option Int) :
    ((if !(jsStrictEq na (some 1)) then
        (Except.error ("Invalid format version major: " ++ format)
          : Except String Unit)
      else if jsLt nb (some 2) then
        Except.error ("Invalid format version minor: " ++ format)
      else Except.ok ()) = Except.ok ())
      ↔ (na = some 1 ∧ ∀ m, nb = some m → 2 ≤ m) := by
  cases na with
  | none => simp [jsStrictEq]
  | some va =>
    cases nb with
    | none =>
      by_cases h : va = 1
      · simp [jsStrictEq, jsLt, h]
      · simp [jsStrictEq, jsLt, h]
    | some vb =>
      by_cases h : va = 1
      · by_cases h2 : vb < 2 <;> simp [jsStrictEq, jsLt, h, h2] <;> omega
      · simp [jsStrictEq, jsLt, h]

/-- C5 (amended): `_validateFormat` accepts a format string iff it splits
on `'.'` into exactly two components, the first component's JS numeric
value is exactly `1`, and the second component's JS numeric value is not a
number less than `2` — in particular a minor that does not parse as a
number (`NaN`) is accepted, because `NaN < 2` is false. -/
theorem validateFormat_characterization (format : String) :
    validateFormat format = .ok ()
      ↔ ∃ a b, jsSplit '.' format = [a, b]
          ∧ jsNum a = some 1
          ∧ ∀ m, jsNum b = some m → 2 ≤ m := by
  have hver : (jsSplit '.' FORMAT).map jsNum = [some 1, some 2] := rfl
  unfold validateFormat
  rw [hver]
  cases hsp : jsSplit '.' format with
  | nil => simp
  | cons a as =>
    cases as with
    | nil => simp
    | cons b bs =>
      cases bs with
      | cons c cs => simp
      | nil =>
        simp only [List.map_cons, List.map_nil]
        rw [if_neg (by simp)]
        simp only [List.getD_cons_zero, List.getD_cons_succ]
        rw [validateFormat_core_iff format (jsNum a) (jsNum b)]
        exact (exists_pair_list_iff a b fun x y =>
          jsNum x = some 1 ∧ ∀ m, jsNum y = some m → 2 ≤ m).symm

/-!
## The package catalog (`src/packages.ts`)

`Packages` holds the parsed list, the flattened set (modelled as a list in
insertion order) and five lookup maps (modelled as insertion-ordered
association lists).  Catalog entries are a forest of descriptors.
-/

/-- A catalog descriptor node (`IPackagesListPackage`): the static type
the catalog JSON is cast to. -/
inductive PkgInfo where
  | mk (name file : String) (size : Int) (sha256 sha1 md5 source : String)
       (packages : List PkgInfo) (zipped : Option String)

def PkgInfo.name : PkgInfo → String
  | .mk n _ _ _ _ _ _ _ _ => n

def PkgInfo.file : PkgInfo → String
  | .mk _ f _ _ _ _ _ _ _ => f

def PkgInfo.size : PkgInfo → Int
  | .mk _ _ s _ _ _ _ _ _ => s

def PkgInfo.sha256 : PkgInfo → String
  | .mk _ _ _ h _ _ _ _ _ => h

def PkgInfo.sha1 : PkgInfo → String
  | .mk _ _ _ _ h _ _ _ _ => h

def PkgInfo.md5 : PkgInfo → String
  | .mk _ _ _ _ _ h _ _ _ => h

def PkgInfo.source : PkgInfo → String
  | .mk _ _ _ _ _ _ s _ _ => s

def PkgInfo.packages : PkgInfo → List PkgInfo
  | .mk _ _ _ _ _ _ _ ps _ => ps

def PkgInfo.zipped : PkgInfo → Option String
  | .mk _ _ _ _ _ _ _ _ z => z

/-- The typed catalog payload (`IPackagesList`). -/
structure IPackagesList where
  format : String
  packages : List PkgInfo

/-- JS truthiness of a string-or-undefined value (the `Package`
constructor tests `zipped` for truthiness: the empty string is falsy). -/
def jsTruthyStr : Option String → Bool
  | none => false
  | some s => s ≠ ""

mutual

/-- The `Package` constructor's zipped/parent pairing invariant, applied
recursively to the whole subtree (children are constructed bound to their
parent).  Returns the first construction error, if any. -/
def checkPkg : Bool → PkgInfo → Except String Unit
  | hasParent, .mk name _ _ _ _ _ _ children zipped =>
    if hasParent && !jsTruthyStr zipped then
      .error ("Missing zipped info: " ++ name)
    else if !hasParent && jsTruthyStr zipped then
      .error ("Unexpected zipped info: " ++ name)
    else checkPkgs children

/-- Construct a list of child packages in order (`_createPackages`). -/
def checkPkgs : List PkgInfo → Except String Unit
  | [] => .ok ()
  | c :: cs =>
    match checkPkg true c with
    | .error e => .error e
    | .ok _ => checkPkgs cs

end

/-- `Packages._parsePackages`: construct each root `Package` in order. -/
def parsePackages : List PkgInfo → Except String Unit
  | [] => .ok ()
  | p :: ps =>
    match checkPkg false p with
    | .error e => .error e
    | .ok _ => parsePackages ps

theorem sizeOf_list_append (l₁ l₂ : List PkgInfo) :
    sizeOf (l₁ ++ l₂) + 1 = sizeOf l₁ + sizeOf l₂ := by
  induction l₁ with
  | nil => simp; omega
  | cons x xs ih => simp [List.cons_append]; omega

/-- `Packages._listPackages`: flatten the forest with a work queue that
pops the front and pushes each node's children back onto the front
(pre-order: each node followed immediately by its subtree). -/
def listPackages : List PkgInfo → List PkgInfo
  | [] => []
  | .mk n f sz h2 h1 h0 src children z :: rest =>
    .mk n f sz h2 h1 h0 src children z :: listPackages (children ++ rest)
termination_by l => sizeOf l
decreasing_by
  simp_wf
  have hs := sizeOf_list_append children rest
  omega

/-- Association-list model of the JS `Map`s used for the indices. -/
abbrev PMap := List (String × PkgInfo)

/-- `Map.prototype.has`. -/
def pmapHas (m : PMap) (k : String) : Bool := m.any fun e => e.1 == k

/-- `Map.prototype.get` (null when missing). -/
def pmapGet (m : PMap) (k : String) : Option PkgInfo :=
  (m.find? fun e => e.1 == k).map fun e => e.2

/-- The shared body of `_packagesMapName` / `Sha256` / `Sha1` / `Md5`:
insert each entry's key, throwing on a duplicate. -/
def packagesMapBuild (key : PkgInfo → String) (errPrefix : String) :
    List PkgInfo → PMap → Except String PMap
  | [], r => .ok r
  | p :: ps, r =>
    if pmapHas r (key p) then .error (errPrefix ++ key p)
    else packagesMapBuild key errPrefix ps (r ++ [(key p, p)])

def packagesMapName (ps : List PkgInfo) : Except String PMap :=
  packagesMapBuild PkgInfo.name "Duplicate package name: " ps []

def packagesMapSha256 (ps : List PkgInfo) : Except String PMap :=
  packagesMapBuild PkgInfo.sha256 "Duplicate package sha256: " ps []

def packagesMapSha1 (ps : List PkgInfo) : Except String PMap :=
  packagesMapBuild PkgInfo.sha1 "Duplicate package sha1: " ps []

def packagesMapMd5 (ps : List PkgInfo) : Except String PMap :=
  packagesMapBuild PkgInfo.md5 "Duplicate package md5: " ps []

/-- Insert a list of keys for one entry into the unique map, in order. -/
def uniqueInsert (p : PkgInfo) : List String → PMap → Except String PMap
  | [], r => .ok r
  | k :: ks, r =>
    if pmapHas r k then .error ("Duplicate package unique: " ++ k)
    else uniqueInsert p ks (r ++ [(k, p)])

/-- `Packages._packagesMapUnique`: for each entry insert its name and all
three hashes into one combined map, throwing on any duplicate. -/
def packagesMapUnique : List PkgInfo → PMap → Except String PMap
  | [], r => .ok r
  | p :: ps, r =>
    match uniqueInsert p [p.name, p.sha256, p.sha1, p.md5] r with
    | .error e => .error e
    | .ok r2 => packagesMapUnique ps r2

/-- The mutable state of a `Packages` instance. -/
structure PackagesState where
  packagesList : Option IPackagesList
  packages : List PkgInfo
  packagesByName : PMap
  packagesBySha256 : PMap
  packagesBySha1 : PMap
  packagesByMd5 : PMap
  packagesByUnique : PMap

/-- A fresh `Packages` instance: nothing loaded, all indices empty. -/
def packagesInit : PackagesState := ⟨none, [], [], [], [], [], []⟩

/-- `Packages._setPackagesList`: validate the format, construct the
packages, flatten, build all five maps — and only if every step succeeded,
assign all the instance fields.  The returned state is the state at the
point the first error (if any) is thrown; no assignment precedes a throw. -/
def setPackagesList (st : PackagesState) (pl : IPackagesList) :
    PackagesState × Option String :=
  match validateFormat pl.format with
  | .error e => (st, some e)
  | .ok _ =>
    match parsePackages pl.packages with
    | .error e => (st, some e)
    | .ok _ =>
      match packagesMapName (listPackages pl.packages) with
      | .error e => (st, some e)
      | .ok byName =>
        match packagesMapSha256 (listPackages pl.packages) with
        | .error e => (st, some e)
        | .ok bySha256 =>
          match packagesMapSha1 (listPackages pl.packages) with
          | .error e => (st, some e)
          | .ok bySha1 =>
            match packagesMapMd5 (listPackages pl.packages) with
            | .error e => (st, some e)
            | .ok byMd5 =>
              match packagesMapUnique (listPackages pl.packages) [] with
              | .error e => (st, some e)
              | .ok byUnique =>
                (⟨some pl, listPackages pl.packages, byName, bySha256,
                    bySha1, byMd5, byUnique⟩, none)

/-!
## Catalog update and diff (`src/packages.ts`, `update` / `_castData`)
-/

/-- A parsed JSON value (`JSON.parse` output shape). -/
inductive JVal where
  | jnull
  | jbool (b : Bool)
  | jnum (n : Int)
  | jstr (s : String)
  | jarr (xs : List JVal)
  | jobj (fields : List (String × JVal))

/-- JS truthiness of a JSON value. -/
def jsTruthy : JVal → Bool
  | .jnull => false
  | .jbool b => b
  | .jnum n => n != 0
  | .jstr s => s ≠ ""
  | .jarr _ => true
  | .jobj _ => true

/-- JS `typeof v === 'object'` (`null` and arrays included). -/
def jsTypeofObject : JVal → Bool
  | .jnull => true
  | .jarr _ => true
  | .jobj _ => true
  | _ => false

/-- Dynamic property read: `undefined` (here `none`) off non-objects and
missing keys. -/
def jGet : JVal → String → Option JVal
  | .jobj fields, k => (fields.find? fun e => e.1 == k).map fun e => e.2
  | _, _ => none

/-- `typeof x === 'string'` for a possibly-`undefined` value. -/
def jIsString : Option JVal → Bool
  | some (.jstr _) => true
  | _ => false

/-- `Array.isArray` for a possibly-`undefined` value. -/
def jIsArray : Option JVal → Bool
  | some (.jarr _) => true
  | _ => false

/-- `Packages._castData`: validate only the top-level shape (truthy,
object, string `format` field, array `packages` field) — the entries
themselves are merely type-cast, not inspected. -/
def castData (v : JVal) : Except String Unit :=
  if !jsTruthy v
      || !jsTypeofObject v
      || !jIsString (jGet v "format")
      || !jIsArray (jGet v "packages") then
    .error "Failed to validate packages"
  else .ok ()

/-- The diff record (`IPackageUpdated`). -/
structure IPackageUpdated where
  name : String
  file : String
  size : Int
  sha256 : String

def pkgUpdated (p : PkgInfo) : IPackageUpdated :=
  ⟨p.name, p.file, p.size, p.sha256⟩

/-- The update report returned by `Packages.update`. -/
structure UpdateReport where
  updated : List IPackageUpdated
  added : List IPackageUpdated
  removed : List IPackageUpdated

/-- Insertion-ordered JS `Map` of diff records. -/
abbrev UMap := List (String × IPackageUpdated)

def umapGet (m : UMap) (k : String) : Option IPackageUpdated :=
  (m.find? fun e => e.1 == k).map fun e => e.2

/-- `Map.prototype.set`: replace in place if present, else append. -/
def umapSet (m : UMap) (k : String) (v : IPackageUpdated) : UMap :=
  if m.any fun e => e.1 == k then
    m.map fun e => if e.1 == k then (k, v) else e
  else m ++ [(k, v)]

/-- `Map.prototype.delete`. -/
def umapDelete (m : UMap) (k : String) : UMap :=
  m.filter fun e => !(e.1 == k)

/-- Whether any of `file`, `size`, `sha256` changed between a snapshot
record and a new record (the body of the `updated` test). -/
def pkgDiffers (before obj : IPackageUpdated) : Bool :=
  before.sha256 != obj.sha256 || before.size != obj.size
    || before.file != obj.file

/-- One step of the post-load classification loop of `Packages.update`:
look the new package's name up in the snapshot map, delete it from the
map, and append to `added` or `updated` as the comparison dictates. -/
def diffStep (acc : UMap × List IPackageUpdated × List IPackageUpdated)
    (p : PkgInfo) : UMap × List IPackageUpdated × List IPackageUpdated :=
  let obj := pkgUpdated p
  let before := umapGet acc.1 p.name
  let m := umapDelete acc.1 p.name
  match before with
  | none => (m, acc.2.1, acc.2.2 ++ [obj])
  | some b =>
    if pkgDiffers b obj then (m, acc.2.1 ++ [obj], acc.2.2)
    else (m, acc.2.1, acc.2.2)

/-- `Packages.update` on the typed catalog payload: snapshot the current
names, set the new list, then classify.  Returns the state at the point of
any error together with the report. -/
def updateTyped (st : PackagesState) (pl : IPackagesList) :
    PackagesState × Except String UpdateReport :=
  let snapshot := st.packages.foldl
    (fun m p => umapSet m p.name (pkgUpdated p)) []
  match setPackagesList st pl with
  | (st2, some e) => (st2, .error e)
  | (st2, none) =>
    let r := st2.packages.foldl diffStep (snapshot, [], [])
    (st2, .ok ⟨r.2.1, r.2.2, r.1.map fun e => e.2⟩)

/-- `Packages.update` on raw parsed JSON: `_parseData` = `_castData` plus
the TS type cast; the cast itself is a no-op reinterpretation of the same
JSON data, represented here by the ambient decoding `asTyped` of the
value that passed the shape check. -/
def update (st : PackagesState) (raw : JVal)
    (asTyped : JVal → IPackagesList) :
    PackagesState × Except String UpdateReport :=
  match castData raw with
  | .error e => (st, .error e)
  | .ok _ => updateTyped st (asTyped raw)

/-! ### Catalog load atomicity (claim C4) -/

theorem pmapHas_append (r s : PMap) (k : String) :
    pmapHas (r ++ s) k = (pmapHas r k || pmapHas s k) := by
  simp [pmapHas, List.any_append]

theorem packagesMapBuild_ok_not_has (key : PkgInfo → String) (err : String) :
    ∀ (ps : List PkgInfo) (r m : PMap),
      packagesMapBuild key err ps r = .ok m →
      ∀ k, pmapHas r k = true → k ∉ ps.map key
  | [], _, _, _, _, _ => by simp
  | p :: ps, r, m, h, k, hk => by
    unfold packagesMapBuild at h
    by_cases hc : pmapHas r (key p)
    · rw [if_pos hc] at h
      exact absurd h (by simp)
    · rw [if_neg hc] at h
      intro hmem
      rcases List.mem_cons.mp hmem with heq | hmem2
      · subst heq
        exact hc hk
      · refine packagesMapBuild_ok_not_has key err ps (r ++ [(key p, p)]) m
          h k ?_ hmem2
        rw [pmapHas_append, hk]
        rfl

theorem packagesMapBuild_ok_nodup (key : PkgInfo → String) (err : String) :
    ∀ (ps : List PkgInfo) (r m : PMap),
      packagesMapBuild key err ps r = .ok m → (ps.map key).Nodup
  | [], _, _, _ => by simp
  | p :: ps, r, m, h => by
    unfold packagesMapBuild at h
    by_cases hc : pmapHas r (key p)
    · rw [if_pos hc] at h
      exact absurd h (by simp)
    · rw [if_neg hc] at h
      have ih := packagesMapBuild_ok_nodup key err ps (r ++ [(key p, p)]) m h
      have hnot : key p ∉ ps.map key := by
        refine packagesMapBuild_ok_not_has key err ps (r ++ [(key p, p)]) m
          h (key p) ?_
        rw [pmapHas_append]
        simp [pmapHas]
      simpa using And.intro hnot ih

theorem setPackagesList_error_unchanged (st : PackagesState)
    (pl : IPackagesList) (h : (setPackagesList st pl).2 ≠ none) :
    (setPackagesList st pl).1 = st := by
  rcases hv : validateFormat pl.format with e | u
  · simp [setPackagesList, hv]
  rcases hp : parsePackages pl.packages with e | u2
  · simp [setPackagesList, hv, hp]
  rcases hn : packagesMapName (listPackages pl.packages) with e | byName
  · simp [setPackagesList, hv, hp, hn]
  rcases h256 : packagesMapSha256 (listPackages pl.packages) with e | b256
  · simp [setPackagesList, hv, hp, hn, h256]
  rcases h1 : packagesMapSha1 (listPackages pl.packages) with e | b1
  · simp [setPackagesList, hv, hp, hn, h256, h1]
  rcases h5 : packagesMapMd5 (listPackages pl.packages) with e | b5
  · simp [setPackagesList, hv, hp, hn, h256, h1, h5]
  rcases hu : packagesMapUnique (listPackages pl.packages) [] with e | bu
  · simp [setPackagesList, hv, hp, hn, h256, h1, h5, hu]
  · exfalso
    apply h
    simp [setPackagesList, hv, hp, hn, h256, h1, h5, hu]

theorem setPackagesList_ok_nodup (st st2 : PackagesState)
    (pl : IPackagesList) (h : setPackagesList st pl = (st2, none)) :
    ((listPackages pl.packages).map PkgInfo.name).Nodup
      ∧ ((listPackages pl.packages).map PkgInfo.sha256).Nodup
      ∧ ((listPackages pl.packages).map PkgInfo.sha1).Nodup
      ∧ ((listPackages pl.packages).map PkgInfo.md5).Nodup := by
  rcases hv : validateFormat pl.format with e | u
  · simp [setPackagesList, hv] at h
  rcases hp : parsePackages pl.packages with e | u2
  · simp [setPackagesList, hv, hp] at h
  rcases hn : packagesMapName (listPackages pl.packages) with e | byName
  · simp [setPackagesList, hv, hp, hn] at h
  rcases h256 : packagesMapSha256 (listPackages pl.packages) with e | b256
  · simp [setPackagesList, hv, hp, hn, h256] at h
  rcases h1 : packagesMapSha1 (listPackages pl.packages) with e | b1
  · simp [setPackagesList, hv, hp, hn, h256, h1] at h
  rcases h5 : packagesMapMd5 (listPackages pl.packages) with e | b5
  · simp [setPackagesList, hv, hp, hn, h256, h1, h5] at h
  exact ⟨packagesMapBuild_ok_nodup _ _ _ _ _ hn,
    packagesMapBuild_ok_nodup _ _ _ _ _ h256,
    packagesMapBuild_ok_nodup _ _ _ _ _ h1,
    packagesMapBuild_ok_nodup _ _ _ _ _ h5⟩

/-- C4: catalog loading is all-or-nothing: whenever `update` fails — a
malformed top-level shape, a format-version mismatch, a construction
error, or a duplicate key — the whole `Packages` state (list, set, and all
five indices) is exactly what it was before the call; and a duplicate key
in any of the four index spaces over the flattened forest forces such a
failure. -/
theorem catalog_load_atomic :
    (∀ (st : PackagesState) (raw : JVal) (asTyped : JVal → IPackagesList),
        (∃ e, (update st raw asTyped).2 = .error e) →
        (update st raw asTyped).1 = st)
    ∧ (∀ (pl : IPackagesList) (st : PackagesState),
        (¬ ((listPackages pl.packages).map PkgInfo.name).Nodup
          ∨ ¬ ((listPackages pl.packages).map PkgInfo.sha256).Nodup
          ∨ ¬ ((listPackages pl.packages).map PkgInfo.sha1).Nodup
          ∨ ¬ ((listPackages pl.packages).map PkgInfo.md5).Nodup) →
        (∃ e, (updateTyped st pl).2 = .error e)
          ∧ (updateTyped st pl).1 = st) := by
  have hupd : ∀ (st : PackagesState) (pl : IPackagesList),
      (∃ e, (updateTyped st pl).2 = .error e) → (updateTyped st pl).1 = st := by
    intro st pl ⟨e, he⟩
    rcases hsp : setPackagesList st pl with ⟨st2, err⟩
    cases err with
    | some e2 =>
      have h3 := setPackagesList_error_unchanged st pl (by rw [hsp]; simp)
      rw [hsp] at h3
      simp only [updateTyped, hsp]
      exact h3
    | none =>
      simp only [updateTyped, hsp] at he
      exact absurd he (by simp)
  constructor
  · intro st raw asTyped ⟨e, he⟩
    rcases hc : castData raw with e2 | u
    · simp [update, hc]
    · simp only [update, hc] at he ⊢
      exact hupd st (asTyped raw) ⟨e, he⟩
  · intro pl st hdup
    have herr : (setPackagesList st pl).2 ≠ none := by
      intro hnone
      rcases hsp : setPackagesList st pl with ⟨st2, err⟩
      rw [hsp] at hnone
      subst hnone
      have hnd := setPackagesList_ok_nodup st st2 pl hsp
      rcases hdup with h | h | h | h
      · exact h hnd.1
      · exact h hnd.2.1
      · exact h hnd.2.2.1
      · exact h hnd.2.2.2
    have hex : ∃ e, (updateTyped st pl).2 = .error e := by
      unfold updateTyped
      rcases hsp : setPackagesList st pl with ⟨st2, err⟩
      cases err with
      | some e2 => exact ⟨e2, rfl⟩
      | none => rw [hsp] at herr; simp at herr
    exact ⟨hex, hupd st pl hex⟩

/-- A catalog payload with a duplicated name (and duplicated hashes), for
the C4 witness. -/
def dupCatalog : IPackagesList :=
  ⟨"1.2",
    [.mk "a" "a.bin" 1 "h2" "h1" "h0" "u" [] none,
     .mk "a" "a.bin" 1 "h2" "h1" "h0" "u" [] none]⟩

/-- Witness for `catalog_load_atomic`: a shape-invalid raw value leaves a
fresh state untouched, and a duplicate-name catalog fails and leaves the
state untouched. -/
theorem catalog_load_atomic_witness :
    (update packagesInit JVal.jnull (fun _ => dupCatalog)).1 = packagesInit
      ∧ (∃ e, (updateTyped packagesInit dupCatalog).2 = .error e)
      ∧ (updateTyped packagesInit dupCatalog).1 = packagesInit := by
  have hdupnames : ¬ ((listPackages dupCatalog.packages).map
      PkgInfo.name).Nodup := by
    have h : (listPackages dupCatalog.packages).map PkgInfo.name
        = ["a", "a"] := by
      simp [listPackages, dupCatalog, PkgInfo.packages, PkgInfo.name]
    rw [h]
    decide
  refine ⟨catalog_load_atomic.1 packagesInit JVal.jnull _
    ⟨"Failed to validate packages", rfl⟩, ?_, ?_⟩
  · exact (catalog_load_atomic.2 dupCatalog packagesInit
      (Or.inl hdupnames)).1
  · exact (catalog_load_atomic.2 dupCatalog packagesInit
      (Or.inl hdupnames)).2

/-! ### Update diff classification (claim C6) -/

/-- The added test of the classification loop: the snapshot has no entry
for the new package's name. -/
def addPredB (m : UMap) (p : PkgInfo) : Bool := (umapGet m p.name).isNone

/-- The updated test of the classification loop: the snapshot entry for
the name differs in `file`, `size` or `sha256`. -/
def updPredB (m : UMap) (p : PkgInfo) : Bool :=
  match umapGet m p.name with
  | some b => pkgDiffers b (pkgUpdated p)
  | none => false

theorem umapGet_cons (e : String × IPackageUpdated) (m : UMap) (k : String) :
    umapGet (e :: m) k = if e.1 == k then some e.2 else umapGet m k := by
  by_cases h : (e.1 == k) = true
  · simp [umapGet, List.find?, h]
  · have hb : (e.1 == k) = false := by simpa using h
    simp [umapGet, List.find?, hb]

theorem umapGet_delete_ne (m : UMap) (k k' : String)
    (h : (k' == k) = false) :
    umapGet (umapDelete m k) k' = umapGet m k' := by
  have hkk : (k == k') = false := by
    rw [beq_eq_false_iff_ne] at h ⊢
    exact fun he => h he.symm
  induction m with
  | nil => rfl
  | cons e m ih =>
    unfold umapDelete at ih ⊢
    rw [List.filter_cons]
    cases he : (e.1 == k) with
    | true =>
      have he' : e.1 = k := by simpa using he
      rw [if_neg (by simp [he]), ih, umapGet_cons, he']
      simp [hkk]
    | false =>
      rw [if_pos (by simp [he])]
      cases hk : (e.1 == k') with
      | true => simp [umapGet_cons, hk]
      | false => simp [umapGet_cons, hk, ih]

theorem snapshot_eq :
    ∀ (ps : List PkgInfo) (m : UMap),
      (ps.map PkgInfo.name).Nodup →
      (∀ p ∈ ps, (m.any fun e => e.1 == p.name) = false) →
      ps.foldl (fun m p => umapSet m p.name (pkgUpdated p)) m
        = m ++ ps.map fun p => (p.name, pkgUpdated p)
  | [], m, _, _ => by simp
  | p :: ps, m, hnd, hin => by
    have hnd2 : (p.name :: ps.map PkgInfo.name).Nodup := by simpa using hnd
    obtain ⟨hp, hnd'⟩ := List.nodup_cons.mp hnd2
    simp only [List.foldl_cons]
    have hset : umapSet m p.name (pkgUpdated p)
        = m ++ [(p.name, pkgUpdated p)] := by
      unfold umapSet
      rw [if_neg]
      simp [hin p (List.mem_cons_self p ps)]
    rw [hset, snapshot_eq ps (m ++ [(p.name, pkgUpdated p)])
      (by simpa using hnd') ?_]
    · simp
    · intro q hq
      have hqn : ¬ q.name = p.name := by
        intro he
        exact hp (he ▸ List.mem_map_of_mem PkgInfo.name hq)
      simp [List.any_append, hin q (List.mem_cons_of_mem p hq)]
      simpa [eq_comm] using hqn

theorem umapGet_map_pair :
    ∀ (ps : List PkgInfo) (k : String),
      umapGet (ps.map fun p => (p.name, pkgUpdated p)) k
        = (ps.find? fun p => p.name == k).map pkgUpdated
  | [], _ => rfl
  | p :: ps, k => by
    by_cases h : p.name == k
    · simp [umapGet, List.find?, h]
    · have hb : (p.name == k) = false := by simpa using h
      simp only [List.map_cons, umapGet, List.find?, hb]
      exact umapGet_map_pair ps k

theorem diffFold_spec :
    ∀ (new : List PkgInfo) (m : UMap) (u a : List IPackageUpdated),
      (new.map PkgInfo.name).Nodup →
      new.foldl diffStep (m, u, a)
        = (m.filter fun e => !((new.map PkgInfo.name).contains e.1),
           u ++ (new.filter fun p => updPredB m p).map pkgUpdated,
           a ++ (new.filter fun p => addPredB m p).map pkgUpdated)
  | [], m, u, a, _ => by simp
  | p :: rest, m, u, a, hnd => by
    have hnd2 : (p.name :: rest.map PkgInfo.name).Nodup := by simpa using hnd
    obtain ⟨hp, hnd'⟩ := List.nodup_cons.mp hnd2
    have hne : ∀ q ∈ rest, (q.name == p.name) = false := by
      intro q hq
      rw [beq_eq_false_iff_ne]
      intro he
      exact hp (he ▸ List.mem_map_of_mem PkgInfo.name hq)
    have hgetN : ∀ q ∈ rest,
        umapGet (umapDelete m p.name) q.name = umapGet m q.name := fun q hq =>
      umapGet_delete_ne m p.name q.name (hne q hq)
    have hupdEq : (rest.filter fun q => updPredB (umapDelete m p.name) q)
        = rest.filter fun q => updPredB m q :=
      List.filter_congr fun q hq => by simp [updPredB, hgetN q hq]
    have haddEq : (rest.filter fun q => addPredB (umapDelete m p.name) q)
        = rest.filter fun q => addPredB m q :=
      List.filter_congr fun q hq => by simp [addPredB, hgetN q hq]
    have hmEq : ((umapDelete m p.name).filter
          fun e => !((rest.map PkgInfo.name).contains e.1))
        = m.filter fun e =>
            !(((p :: rest).map PkgInfo.name).contains e.1) := by
      unfold umapDelete
      rw [List.filter_filter]
      refine List.filter_congr fun e he => ?_
      simp only [List.map_cons, List.contains_cons, Bool.not_or]
      rw [Bool.and_comm]
    simp only [List.foldl_cons]
    cases hget : umapGet m p.name with
    | none =>
      have hstep : diffStep (m, u, a) p
          = (umapDelete m p.name, u, a ++ [pkgUpdated p]) := by
        simp [diffStep, hget]
      rw [hstep, diffFold_spec rest (umapDelete m p.name) u
        (a ++ [pkgUpdated p]) hnd']
      rw [Prod.mk.injEq, Prod.mk.injEq]
      refine ⟨hmEq, ?_, ?_⟩
      · rw [hupdEq, List.filter_cons]
        simp [updPredB, hget]
      · rw [haddEq, List.filter_cons]
        simp [addPredB, hget]
    | some b =>
      by_cases hd : pkgDiffers b (pkgUpdated p)
      · have hstep : diffStep (m, u, a) p
            = (umapDelete m p.name, u ++ [pkgUpdated p], a) := by
          simp [diffStep, hget, hd]
        rw [hstep, diffFold_spec rest (umapDelete m p.name)
          (u ++ [pkgUpdated p]) a hnd']
        rw [Prod.mk.injEq, Prod.mk.injEq]
        refine ⟨hmEq, ?_, ?_⟩
        · rw [hupdEq, List.filter_cons]
          simp [updPredB, hget, hd]
        · rw [haddEq, List.filter_cons]
          simp [addPredB, hget]
      · have hstep : diffStep (m, u, a) p
            = (umapDelete m p.name, u, a) := by
          simp [diffStep, hget, hd]
        rw [hstep, diffFold_spec rest (umapDelete m p.name) u a hnd']
        rw [Prod.mk.injEq, Prod.mk.injEq]
        refine ⟨hmEq, ?_, ?_⟩
        · rw [hupdEq, List.filter_cons]
          simp [updPredB, hget, hd]
        · rw [haddEq, List.filter_cons]
          simp [addPredB, hget]

theorem contains_eq_decide_mem (l : List String) (k : String) :
    l.contains k = decide (k ∈ l) := by
  simp [List.contains, List.elem_eq_mem]

theorem setPackagesList_ok_state (st st2 : PackagesState)
    (pl : IPackagesList) (h : setPackagesList st pl = (st2, none)) :
    st2.packages = listPackages pl.packages := by
  rcases hv : validateFormat pl.format with e | u
  · simp [setPackagesList, hv] at h
  rcases hp : parsePackages pl.packages with e | u2
  · simp [setPackagesList, hv, hp] at h
  rcases hn : packagesMapName (listPackages pl.packages) with e | byName
  · simp [setPackagesList, hv, hp, hn] at h
  rcases h256 : packagesMapSha256 (listPackages pl.packages) with e | b256
  · simp [setPackagesList, hv, hp, hn, h256] at h
  rcases h1 : packagesMapSha1 (listPackages pl.packages) with e | b1
  · simp [setPackagesList, hv, hp, hn, h256, h1] at h
  rcases h5 : packagesMapMd5 (listPackages pl.packages) with e | b5
  · simp [setPackagesList, hv, hp, hn, h256, h1, h5] at h
  rcases hu : packagesMapUnique (listPackages pl.packages) [] with e | bu
  · simp [setPackagesList, hv, hp, hn, h256, h1, h5, hu] at h
  · simp only [setPackagesList, hv, hp, hn, h256, h1, h5, hu,
      Prod.mk.injEq] at h
    rw [← h.1]

theorem find?_name_self :
    ∀ (ps : List PkgInfo), (ps.map PkgInfo.name).Nodup →
      ∀ p ∈ ps, (ps.find? fun q => q.name == p.name) = some p
  | [], _, p, hp => absurd hp (List.not_mem_nil p)
  | x :: rest, hnd, p, hp => by
    have hnd2 : (x.name :: rest.map PkgInfo.name).Nodup := by simpa using hnd
    obtain ⟨hx, hnd'⟩ := List.nodup_cons.mp hnd2
    rcases List.mem_cons.mp hp with rfl | hp2
    · simp [List.find?]
    · have hne : (x.name == p.name) = false := by
        rw [beq_eq_false_iff_ne]
        intro he
        exact hx (he ▸ List.mem_map_of_mem PkgInfo.name hp2)
      simp only [List.find?, hne]
      exact find?_name_self rest hnd' p hp2

theorem filter_map_pair (ps : List PkgInfo) (f : String → Bool) :
    ((ps.map fun p => (p.name, pkgUpdated p)).filter fun e => f e.1)
      = (ps.filter fun p => f p.name).map fun p => (p.name, pkgUpdated p) := by
  induction ps with
  | nil => rfl
  | cons p ps ih =>
    simp only [List.map_cons, List.filter_cons]
    cases hf : f p.name <;> simp [hf, ih]

theorem addPredB_snap (old : List PkgInfo) (p : PkgInfo) :
    addPredB (old.map fun q => (q.name, pkgUpdated q)) p
      = !((old.map PkgInfo.name).contains p.name) := by
  unfold addPredB
  rw [umapGet_map_pair, contains_eq_decide_mem]
  cases hf : old.find? fun q => q.name == p.name with
  | some q =>
    have hqm := List.mem_of_find?_eq_some hf
    have hqp : q.name = p.name := by simpa using List.find?_some hf
    have hmem : p.name ∈ old.map PkgInfo.name :=
      hqp ▸ List.mem_map_of_mem PkgInfo.name hqm
    simp [hmem]
  | none =>
    have hall := List.find?_eq_none.mp hf
    have hnmem : p.name ∉ old.map PkgInfo.name := by
      intro hmem
      obtain ⟨q, hq, heq⟩ := List.mem_map.mp hmem
      exact hall q hq (by simp [heq])
    simp [hnmem]

theorem updPredB_snap (old : List PkgInfo) (p : PkgInfo) :
    updPredB (old.map fun q => (q.name, pkgUpdated q)) p
      = match old.find? fun q => q.name == p.name with
        | some q => pkgDiffers (pkgUpdated q) (pkgUpdated p)
        | none => false := by
  unfold updPredB
  rw [umapGet_map_pair]
  cases old.find? fun q => q.name == p.name <;> rfl

theorem pkgDiffers_self (x : IPackageUpdated) : pkgDiffers x x = false := by
  simp [pkgDiffers]

/-- The full characterization of one successful `updateTyped` call, given
name-unique previous contents. -/
theorem updateTyped_report (st : PackagesState) (pl : IPackagesList)
    (st2 : PackagesState) (rep : UpdateReport)
    (hnd : (st.packages.map PkgInfo.name).Nodup)
    (hok : updateTyped st pl = (st2, .ok rep)) :
    rep.added = (st2.packages.filter fun p =>
        !((st.packages.map PkgInfo.name).contains p.name)).map pkgUpdated
    ∧ rep.updated = (st2.packages.filter fun p =>
        match st.packages.find? fun q => q.name == p.name with
        | some q => pkgDiffers (pkgUpdated q) (pkgUpdated p)
        | none => false).map pkgUpdated
    ∧ rep.removed = (st.packages.filter fun q =>
        !((st2.packages.map PkgInfo.name).contains q.name)).map pkgUpdated
    ∧ (st2.packages.map PkgInfo.name).Nodup
    ∧ st2.packages = listPackages pl.packages := by
  rcases hsp : setPackagesList st pl with ⟨st2', err⟩
  cases err with
  | some e => simp [updateTyped, hsp] at hok
  | none =>
    have hstate := setPackagesList_ok_state st st2' pl hsp
    have hnewnd : (st2'.packages.map PkgInfo.name).Nodup := by
      rw [hstate]
      exact (setPackagesList_ok_nodup st st2' pl hsp).1
    have hsnap := snapshot_eq st.packages [] hnd (fun p _ => rfl)
    have hfold := diffFold_spec st2'.packages
      (st.packages.map fun p => (p.name, pkgUpdated p)) [] [] hnewnd
    simp only [updateTyped, hsp, hsnap, List.nil_append, hfold,
      Prod.mk.injEq, Except.ok.injEq] at hok
    obtain ⟨hst, hrep⟩ := hok
    subst hst
    subst hrep
    refine ⟨?_, ?_, ?_, hnewnd, hstate⟩
    · simp only [List.nil_append]
      exact congrArg (List.map pkgUpdated)
        (List.filter_congr fun p _ => addPredB_snap st.packages p)
    · simp only [List.nil_append]
      exact congrArg (List.map pkgUpdated)
        (List.filter_congr fun p _ => updPredB_snap st.packages p)
    · show (((st.packages.map fun p => (p.name, pkgUpdated p)).filter
          fun e => !((st2'.packages.map PkgInfo.name).contains e.1)).map
            fun e => e.2) = _
      rw [filter_map_pair st.packages
        fun k => !((st2'.packages.map PkgInfo.name).contains k)]
      simp [Function.comp]

/-- C6: for a previously loaded catalog state (names unique) and a newly
parsed catalog, `update` classifies each package name into exactly one of
added / updated / removed / unchanged: `added` collects exactly the new
packages whose name was absent before; `updated` exactly those present
before with `file`, `size` or `sha256` changed (a `source`-only change is
not reported); `removed` exactly the old names absent from the new set;
and loading identical content twice reports no additions, updates or
removals. -/
theorem update_classification
    (st : PackagesState) (pl : IPackagesList) (st2 : PackagesState)
    (rep : UpdateReport)
    (hnd : (st.packages.map PkgInfo.name).Nodup)
    (hok : updateTyped st pl = (st2, .ok rep)) :
    rep.added = (st2.packages.filter fun p =>
        !((st.packages.map PkgInfo.name).contains p.name)).map pkgUpdated
    ∧ rep.updated = (st2.packages.filter fun p =>
        match st.packages.find? fun q => q.name == p.name with
        | some q => pkgDiffers (pkgUpdated q) (pkgUpdated p)
        | none => false).map pkgUpdated
    ∧ rep.removed = (st.packages.filter fun q =>
        !((st2.packages.map PkgInfo.name).contains q.name)).map pkgUpdated
    ∧ (∀ st3 rep2, updateTyped st2 pl = (st3, .ok rep2) →
        rep2.added = [] ∧ rep2.updated = [] ∧ rep2.removed = []) := by
  obtain ⟨ha, hu, hr, hnew, hstate⟩ := updateTyped_report st pl st2 rep hnd hok
  refine ⟨ha, hu, hr, ?_⟩
  intro st3 rep2 hok2
  obtain ⟨ha2, hu2, hr2, hnew3, hstate3⟩ :=
    updateTyped_report st2 pl st3 rep2 hnew hok2
  have hsame : st3.packages = st2.packages := by rw [hstate3, hstate]
  have hself : (st2.packages.filter fun p =>
      !((st2.packages.map PkgInfo.name).contains p.name)) = [] := by
    rw [List.filter_eq_nil_iff]
    intro p hp
    simp [contains_eq_decide_mem, List.mem_map_of_mem PkgInfo.name hp]
  refine ⟨?_, ?_, ?_⟩
  · rw [ha2, hsame, hself]
    rfl
  · rw [hu2, hsame]
    have h0 : (st2.packages.filter fun p =>
        match st2.packages.find? fun q => q.name == p.name with
        | some q => pkgDiffers (pkgUpdated q) (pkgUpdated p)
        | none => false) = [] := by
      rw [List.filter_eq_nil_iff]
      intro p hp
      rw [find?_name_self st2.packages hnew p hp]
      simp [pkgDiffers_self]
    rw [h0]
    rfl
  · rw [hr2, hsame, hself]
    rfl

/-- A one-package catalog used by the C6 witness. -/
def pkgB : PkgInfo := .mk "b" "b.bin" 2 "b2" "b1" "b0" "sb" [] none

/-- The catalog payload holding only `pkgB`. -/
def newCatalog : IPackagesList := ⟨"1.2", [pkgB]⟩

/-- The state after loading `newCatalog` into a fresh instance. -/
def newStateExpected : PackagesState :=
  ⟨some newCatalog, [pkgB], [("b", pkgB)], [("b2", pkgB)], [("b1", pkgB)],
    [("b0", pkgB)],
    [("b", pkgB), ("b2", pkgB), ("b1", pkgB), ("b0", pkgB)]⟩

/-- The report of that load: one addition. -/
def newRepExpected : UpdateReport := ⟨[], [⟨"b", "b.bin", 2, "b2"⟩], []⟩

theorem updateTyped_eval_example :
    updateTyped packagesInit newCatalog = (newStateExpected, .ok newRepExpected)
    := by
  have hlist : listPackages [PkgInfo.mk "b" "b.bin" 2 "b2" "b1" "b0" "sb" [] none]
      = [PkgInfo.mk "b" "b.bin" 2 "b2" "b1" "b0" "sb" [] none] := by
    simp [listPackages]
  have hparse : parsePackages [PkgInfo.mk "b" "b.bin" 2 "b2" "b1" "b0" "sb" [] none]
      = .ok () := by
    simp [parsePackages, checkPkg, checkPkgs, jsTruthyStr]
  have hval : validateFormat "1.2" = .ok () := rfl
  simp [updateTyped, setPackagesList, hval, hparse, hlist, packagesInit,
    packagesMapName, packagesMapSha256, packagesMapSha1, packagesMapMd5,
    packagesMapBuild, packagesMapUnique, uniqueInsert, pmapHas, pkgB,
    diffStep, umapGet, umapSet, umapDelete, pkgUpdated, newStateExpected,
    newRepExpected, newCatalog, PkgInfo.name, PkgInfo.file, PkgInfo.size,
    PkgInfo.sha256, PkgInfo.sha1, PkgInfo.md5]

/-- Witness for `update_classification`: loading a one-package catalog
into a fresh instance reports exactly that package as added. -/
theorem update_classification_witness :
    newRepExpected.added = (newStateExpected.packages.filter fun p =>
        !((packagesInit.packages.map PkgInfo.name).contains p.name)).map
          pkgUpdated :=
  (update_classification packagesInit newCatalog newStateExpected
    newRepExpected (by decide) updateTyped_eval_example).1

/-!
## Install verify/commit (`src/manager.ts` lines 796-822,
`_packageMetaReceiptWrite` lines 1015-1028)

After the stream pipeline completes, `install` verifies the byte count and
the digest, then commits.  That tail is embedded as a generator of the
filesystem actions performed, over symbolic destination paths.
-/

/-- A path the install tail touches.  `outFile` is the installed payload
(`R/<name>/<file>`), `metaFile` the Install Receipt
(`R/<name>/M/package.json`), `metaTmp` the receipt's temp sibling
(`metaFile + ".tmp"`), `tmpFile` the download scratch file inside
`tmpDir` (`R/<name>/M/tmp`). -/
inductive Dest where
  | outFile
  | metaFile
  | metaTmp
  | tmpFile
  | tmpDir
deriving DecidableEq

/-- A filesystem action of the install tail. -/
inductive FsoAct where
  | ensureDirs
  | rmForce (d : Dest)
  | renameTo (src dst : Dest)
  | writeFileWx (d : Dest)
  | closeFd
  | rmDirRecursive (d : Dest)
deriving DecidableEq

/-- `Manager._packageMetaReceiptWrite`: remove the receipt temp, write it
exclusively, rename it over the receipt path. -/
def packageMetaReceiptWrite : List FsoAct :=
  [.rmForce .metaTmp, .writeFileWx .metaTmp, .renameTo .metaTmp .metaFile]

/-- The actions of `install` from the end of the stream pipeline: verify
the written size, verify the digest, then ensure directories, remove any
pre-existing receipt and payload, rename the temp file into place and
write the receipt; the `finally` block closes the descriptor and removes
the temp directory regardless.  Returns the actions performed and the
error, if any. -/
def installVerifyCommit (bytesWritten size : Int) (hashed sha256 : String) :
    List FsoAct × Option String :=
  let (acts, err) :=
    if bytesWritten ≠ size then
      ([], some "Invalid extract size")
    else if hashed ≠ sha256 then
      ([], some "Invalid sha256 hash")
    else
      ([.ensureDirs, .rmForce .metaFile, .rmForce .outFile,
        .renameTo .tmpFile .outFile] ++ packageMetaReceiptWrite, none)
  (acts ++ [.closeFd, .rmDirRecursive .tmpDir], err)

/-- Does an action touch an installed destination file (the payload or
the receipt)?  Writing the receipt's temp sibling or cleaning the scratch
directory does not touch an existing installed file. -/
def touchesInstalled : FsoAct → Bool
  | .rmForce .outFile => true
  | .rmForce .metaFile => true
  | .renameTo _ .outFile => true
  | .renameTo _ .metaFile => true
  | .writeFileWx .outFile => true
  | .writeFileWx .metaFile => true
  | _ => false

/-- C3: commit happens only after the byte count equals the declared size
and the digest equals the declared sha256; on either mismatch the install
errors without touching any installed file at the destination; on success
the pre-existing receipt and payload are removed, the temp file renamed
into place, and the receipt written strictly last (itself temp-then-
rename), so a receipt's existence implies a verified, complete install. -/
theorem install_verify_commit_spec
    (bytesWritten size : Int) (hashed sha256 : String) :
    ((installVerifyCommit bytesWritten size hashed sha256).2 = none
      ↔ (bytesWritten = size ∧ hashed = sha256))
    ∧ ((bytesWritten ≠ size ∨ hashed ≠ sha256) →
        ((installVerifyCommit bytesWritten size hashed sha256).1.filter
          touchesInstalled) = [])
    ∧ (bytesWritten = size → hashed = sha256 →
        (installVerifyCommit bytesWritten size hashed sha256).1
          = [.ensureDirs, .rmForce .metaFile, .rmForce .outFile,
             .renameTo .tmpFile .outFile, .rmForce .metaTmp,
             .writeFileWx .metaTmp, .renameTo .metaTmp .metaFile,
             .closeFd, .rmDirRecursive .tmpDir]
        ∧ ((installVerifyCommit bytesWritten size hashed sha256).1.filter
            touchesInstalled).getLast?
          = some (.renameTo .metaTmp .metaFile)) := by
  by_cases hs : bytesWritten = size
  · by_cases hh : hashed = sha256
    · refine ⟨by simp [installVerifyCommit, packageMetaReceiptWrite, hs, hh],
        ?_, ?_⟩
      · rintro (h | h) <;> [exact absurd hs h; exact absurd hh h]
      · intro _ _
        constructor
        · simp [installVerifyCommit, packageMetaReceiptWrite, hs, hh]
        · simp [installVerifyCommit, packageMetaReceiptWrite, hs, hh,
            touchesInstalled, List.filter]
    · refine ⟨by simp [installVerifyCommit, hs, hh], ?_, ?_⟩
      · intro _
        simp [installVerifyCommit, hs, hh, touchesInstalled, List.filter]
      · intro _ h
        exact absurd h hh
  · refine ⟨by simp [installVerifyCommit, hs], ?_, ?_⟩
    · intro _
      simp [installVerifyCommit, hs, touchesInstalled, List.filter]
    · intro h
      exact absurd h hs

/-- Witness for `install_verify_commit_spec` at concrete matching and
mismatching inputs. -/
theorem install_verify_commit_spec_witness :
    ((installVerifyCommit 5 5 "d" "d").2 = none ↔ ((5 : Int) = 5 ∧ "d" = "d"))
    ∧ (((5 : Int) ≠ 5 ∨ "d" ≠ "x") →
        ((installVerifyCommit 5 5 "d" "x").1.filter touchesInstalled) = []) :=
  ⟨(install_verify_commit_spec 5 5 "d" "d").1,
    (install_verify_commit_spec 5 5 "d" "x").2.1⟩

/-!
## Network fetches (`src/manager.ts`: `retry`, `_requestPackages`, and
the fetch step of `install`, lines 701-777)

The transport is an oracle mapping the attempt number to either a
transport-level rejection or a response.  `retry` calls the function and,
only if the promise rejects, calls it exactly once more; HTTP status
checking happens after `retry` returns, so a bad status is never retried.
-/

/-- A transport response: status, `content-length` header (`null` or a
string), body text. -/
structure Resp where
  status : Int
  contentLength : Option String
  bodyText : String
deriving DecidableEq

/-- A transport-level rejection, with the optional `cause` `{name, code}`
fields used by `_fetchErrorMessage`. -/
structure TransportErr where
  message : String
  cause : Option (Option String × Option String)
deriving DecidableEq

/-- `Manager._fetchErrorMessage`. -/
def fetchErrorMessage (e : TransportErr) : String :=
  match e.cause with
  | none => e.message
  | some (name, code) =>
    let info := String.intercalate " "
      (([name, code].filterMap id).filter fun v => v ≠ "")
    if info ≠ "" then e.message ++ " (" ++ info ++ ")" else e.message

/-- `retry f = f().catch(async () => f())`, with the number of transport
invocations made. -/
def retryO {R : Type} (o : Nat → Except TransportErr R) :
    Except TransportErr R × Nat :=
  match o 0 with
  | .ok r => (.ok r, 1)
  | .error _ => (o 1, 2)

/-- `Manager._requestPackages`: fetch the catalog URL through `retry`;
require status 200 (checked after `retry`, hence never retried); return
the body text. -/
def requestPackages (o : Nat → Except TransportErr Resp) :
    Except String String × Nat :=
  match retryO o with
  | (.error e, n) => (.error (fetchErrorMessage e), n)
  | (.ok res, n) =>
    if res.status ≠ 200 then (.error "Invalid response status", n)
    else (.ok res.bodyText, n)

/-- A request the install fetch step issues. -/
inductive FetchRequest where
  | ranged (first last : Option Int)
  | plain
deriving DecidableEq

/-- The byte source the install pipeline reads from. -/
inductive InputSrc where
  | webBody
  | emptyStream
deriving DecidableEq

/-- `cl && +cl !== size`: the content-length check fires only when the
header value is truthy (present and non-empty), and compares its JS
numeric value strictly. -/
def contentLengthMismatch (cl : Option String) (expected : Option Int) :
    Bool :=
  match cl with
  | none => false
  | some s => s ≠ "" && !(jsStrictEq (jsNum s) expected)

/-- The fetch step of `Manager.install`: positive slice length issues a
ranged request (status must be 206, content-length checked against the
slice length); zero length uses an `EmptyStream` with no request;
negative (or `NaN`) length throws; no slice (target is a root) issues a
plain request (status must be 200, content-length checked against the
root's declared size).  Returns the outcome, the requests issued and the
number of transport invocations. -/
def installFetch (slice : Option (Option Int × Option Int)) (srcSize : Int)
    (o : Nat → Except TransportErr Resp) :
    Except String InputSrc × List FetchRequest × Nat :=
  match slice with
  | some (start, size) =>
    if jsLt (some 0) size then
      let req := FetchRequest.ranged start (jsAdd (jsAdd start size) (some (-1)))
      match retryO o with
      | (.error e, n) => (.error (fetchErrorMessage e), [req], n)
      | (.ok res, n) =>
        if res.status ≠ 206 then (.error "Invalid resume status", [req], n)
        else if contentLengthMismatch res.contentLength size then
          (.error "Invalid resume content-length", [req], n)
        else (.ok .webBody, [req], n)
    else if jsStrictEq size (some 0) then
      (.ok .emptyStream, [], 0)
    else
      (.error "Cannot download negative size", [], 0)
  | none =>
    match retryO o with
    | (.error e, n) => (.error (fetchErrorMessage e), [.plain], n)
    | (.ok res, n) =>
      if res.status ≠ 200 then (.error "Invalid download status", [.plain], n)
      else if contentLengthMismatch res.contentLength (some srcSize) then
        (.error "Invalid download content-length", [.plain], n)
      else (.ok .webBody, [.plain], n)

/-- Counterexample to C7: a ranged response with status 206 whose
content-length header is present but empty passes the check (the header
is falsy, so `cl && +cl !== size` does not fire), although the empty
string does not equal the requested length 5. -/
theorem install_fetch_claim_false :
    (installFetch (some (some 0, some 5)) 100
        (fun _ => .ok ⟨206, some "", ""⟩)).1 = .ok .webBody
      ∧ jsStrictEq (jsNum "") (some 5) = false := by
  constructor <;> rfl

/-- Shared shape of the response checking done after `retry` in both the
ranged and the plain fetch: status must match exactly, then the
content-length check fires only on a truthy header. -/
def fetchCheck (o : Nat → Except TransportErr Resp) (okStatus : Int)
    (expected : Int) (e1 e2 : String) (reqs : List FetchRequest) :
    Except String InputSrc × List FetchRequest × Nat :=
  match retryO o with
  | (.error e, n) => (.error (fetchErrorMessage e), reqs, n)
  | (.ok res, n) =>
    if res.status ≠ okStatus then (.error e1, reqs, n)
    else if contentLengthMismatch res.contentLength (some expected) then
      (.error e2, reqs, n)
    else (.ok .webBody, reqs, n)

theorem installFetch_pos_eq (start size srcSize : Int)
    (o : Nat → Except TransportErr Resp) (hpos : 0 < size) :
    installFetch (some (some start, some size)) srcSize o
      = fetchCheck o 206 size "Invalid resume status"
          "Invalid resume content-length"
          [.ranged (some start) (some (start + size - 1))] := by
  have hlt : jsLt (some 0) (some size) = true := by
    simp only [jsLt, decide_eq_true_eq]
    omega
  have hreq : jsAdd (jsAdd (some start) (some size)) (some (-1))
      = some (start + size - 1) := by
    simp [jsAdd]
    ring
  simp only [installFetch, hlt, if_true, hreq, fetchCheck]

theorem installFetch_none_eq (srcSize : Int)
    (o : Nat → Except TransportErr Resp) :
    installFetch none srcSize o
      = fetchCheck o 200 srcSize "Invalid download status"
          "Invalid download content-length" [.plain] := by
  simp only [installFetch, fetchCheck]

theorem contentLengthMismatch_false_iff (cl : Option String) (size : Int) :
    contentLengthMismatch cl (some size) = false
      ↔ (∀ s, cl = some s → s ≠ "" → jsNum s = some size) := by
  cases cl with
  | none => simp [contentLengthMismatch]
  | some s =>
    simp only [contentLengthMismatch, Bool.and_eq_false_iff]
    constructor
    · rintro (h | h) s2 hs2 hne
      · injection hs2 with hs2
        subst hs2
        have hs0 : s = "" := by simpa using h
        exact absurd hs0 hne
      · injection hs2 with hs2
        subst hs2
        cases hj : jsNum s with
        | none => rw [hj] at h; simp [jsStrictEq] at h
        | some v =>
          rw [hj] at h
          have hv : v = size := by simpa [jsStrictEq] using h
          rw [hv]
    · intro h
      by_cases hne : s = ""
      · left
        simp [hne]
      · right
        have hv := h s rfl hne
        simp [hv, jsStrictEq]

theorem fetchCheck_reqs (o : Nat → Except TransportErr Resp)
    (okStatus expected : Int) (e1 e2 : String) (reqs : List FetchRequest) :
    (fetchCheck o okStatus expected e1 e2 reqs).2.1 = reqs := by
  unfold fetchCheck
  rcases ho : retryO o with ⟨r, n⟩
  cases r with
  | error e => rfl
  | ok res =>
    simp only []
    split_ifs <;> rfl

theorem fetchCheck_ok_iff (o : Nat → Except TransportErr Resp)
    (okStatus expected : Int) (e1 e2 : String) (reqs : List FetchRequest) :
    (fetchCheck o okStatus expected e1 e2 reqs).1 = .ok .webBody
      ↔ ∃ res n, retryO o = (.ok res, n) ∧ res.status = okStatus
          ∧ ∀ s, res.contentLength = some s → s ≠ "" →
              jsNum s = some expected := by
  unfold fetchCheck
  rcases ho : retryO o with ⟨r, n⟩
  cases r with
  | error e =>
    simp only []
    constructor
    · intro h
      exact absurd h (by simp)
    · rintro ⟨res, n2, hres, -⟩
      simp at hres
  | ok res =>
    simp only []
    split_ifs with h1 h2
    · constructor
      · intro h
        exact absurd h (by simp)
      · rintro ⟨res2, n2, hres, hst, -⟩
        injection hres with h3 h4
        injection h3 with h3
        subst h3
        exact h1 hst
    · constructor
      · intro h
        exact absurd h (by simp)
      · rintro ⟨res2, n2, hres, hst, hcl⟩
        injection hres with h3 h4
        injection h3 with h3
        subst h3
        rw [(contentLengthMismatch_false_iff res.contentLength expected).mpr
          hcl] at h2
        simp at h2
    · constructor
      · intro _
        refine ⟨res, n, rfl, by omega, (contentLengthMismatch_false_iff
          res.contentLength expected).mp ?_⟩
        simpa using h2
      · intro _
        rfl

/-- C7 (amended): a positive accumulated slice issues exactly one ranged
request `bytes=start-(start+size-1)` and succeeds iff the transport
delivers a response with status exactly 206 whose content-length header,
when present and non-empty, has JS numeric value equal to the requested
length; a zero-length slice uses a synthetic empty source with no
transport call; no slice (root target) issues a plain request requiring
status exactly 200 with the same content-length rule against the root's
declared size. -/
theorem install_fetch_spec :
    (∀ (start size srcSize : Int)
        (o : Nat → Except TransportErr Resp), 0 < size →
      (installFetch (some (some start, some size)) srcSize o).2.1
          = [.ranged (some start) (some (start + size - 1))]
        ∧ ((installFetch (some (some start, some size)) srcSize o).1
              = .ok .webBody
            ↔ ∃ res n, retryO o = (.ok res, n) ∧ res.status = 206
                ∧ ∀ s, res.contentLength = some s → s ≠ "" →
                    jsNum s = some size))
    ∧ (∀ (start srcSize : Int) (o : Nat → Except TransportErr Resp),
        installFetch (some (some start, some 0)) srcSize o
          = (.ok .emptyStream, [], 0))
    ∧ (∀ (srcSize : Int) (o : Nat → Except TransportErr Resp),
        (installFetch none srcSize o).2.1 = [.plain]
        ∧ ((installFetch none srcSize o).1 = .ok .webBody
            ↔ ∃ res n, retryO o = (.ok res, n) ∧ res.status = 200
                ∧ ∀ s, res.contentLength = some s → s ≠ "" →
                    jsNum s = some srcSize)) := by
  refine ⟨?_, ?_, ?_⟩
  · intro start size srcSize o hpos
    rw [installFetch_pos_eq start size srcSize o hpos]
    exact ⟨fetchCheck_reqs o 206 size _ _ _, fetchCheck_ok_iff o 206 size _ _ _⟩
  · intro start srcSize o
    simp [installFetch, jsLt, jsStrictEq]
  · intro srcSize o
    rw [installFetch_none_eq srcSize o]
    exact ⟨fetchCheck_reqs o 200 srcSize _ _ _,
      fetchCheck_ok_iff o 200 srcSize _ _ _⟩

/-- Witness for `install_fetch_spec` at a concrete positive slice and a
concrete good response. -/
theorem install_fetch_spec_witness :
    (0 : Int) < 10
      ∧ (installFetch (some (some 3, some 10)) 100
          (fun _ => .ok ⟨206, some "10", ""⟩)).2.1
        = [.ranged (some 3) (some (3 + 10 - 1))] :=
  ⟨by norm_num,
    (install_fetch_spec.1 3 10 100 (fun _ => .ok ⟨206, some "10", ""⟩)
      (by norm_num)).1⟩

/-! ### Retry semantics (claim C9) -/

theorem retryO_count_le {R : Type} (o : Nat → Except TransportErr R)
    (r : Except TransportErr R) (n : Nat) (h : retryO o = (r, n)) :
    n ≤ 2 := by
  unfold retryO at h
  cases ho : o 0 with
  | error e => rw [ho] at h; injection h with h1 h2; omega
  | ok v => rw [ho] at h; injection h with h1 h2; omega

theorem fetchCheck_count (o : Nat → Except TransportErr Resp)
    (okStatus expected : Int) (e1 e2 : String) (reqs : List FetchRequest) :
    (fetchCheck o okStatus expected e1 e2 reqs).2.2 = (retryO o).2 := by
  unfold fetchCheck
  rcases ho : retryO o with ⟨r, n⟩
  cases r with
  | error e => rfl
  | ok res =>
    simp only []
    split_ifs <;> rfl

/-- C9: each top-level network request — the catalog fetch and each
root-resource fetch — makes at most two transport invocations, retrying
exactly once and only on a transport-level failure; a response with a
non-OK status (not 200, or not 206 for a ranged request) is a hard
failure reached after a single transport invocation, never retried. -/
theorem retry_once_spec :
    (∀ (o : Nat → Except TransportErr Resp),
        (requestPackages o).2 ≤ 2
        ∧ (∀ r, o 0 = .ok r → (requestPackages o).2 = 1)
        ∧ (∀ e, o 0 = .error e → (requestPackages o).2 = 2))
    ∧ (∀ (o : Nat → Except TransportErr Resp) (r : Resp),
        o 0 = .ok r → r.status ≠ 200 →
        requestPackages o = (.error "Invalid response status", 1))
    ∧ (∀ (slice : Option (Option Int × Option Int)) (srcSize : Int)
        (o : Nat → Except TransportErr Resp),
        (installFetch slice srcSize o).2.2 ≤ 2)
    ∧ (∀ (start size srcSize : Int) (o : Nat → Except TransportErr Resp)
        (res : Resp), 0 < size → o 0 = .ok res → res.status ≠ 206 →
        (installFetch (some (some start, some size)) srcSize o).1
            = .error "Invalid resume status"
        ∧ (installFetch (some (some start, some size)) srcSize o).2.2 = 1) := by
  have hcount : ∀ (o : Nat → Except TransportErr Resp),
      (requestPackages o).2 = (retryO o).2 := by
    intro o
    unfold requestPackages
    rcases hr : retryO o with ⟨r, n⟩
    cases r with
    | error e => rfl
    | ok res =>
      simp only []
      split_ifs <;> rfl
  refine ⟨?_, ?_, ?_, ?_⟩
  · intro o
    refine ⟨?_, ?_, ?_⟩
    · rw [hcount]
      rcases hr : retryO o with ⟨r, n⟩
      exact retryO_count_le o r n hr
    · intro r hr
      rw [hcount]
      unfold retryO
      rw [hr]
    · intro e he
      rw [hcount]
      unfold retryO
      rw [he]
  · intro o r hr hst
    have hro : retryO o = (.ok r, 1) := by
      unfold retryO
      rw [hr]
    simp [requestPackages, hro, hst]
  · intro slice srcSize o
    cases slice with
    | none =>
      rw [installFetch_none_eq, fetchCheck_count]
      rcases hr : retryO o with ⟨r, n⟩
      exact retryO_count_le o r n hr
    | some p =>
      obtain ⟨s0, s1⟩ := p
      simp only [installFetch]
      split_ifs with h1 h2
      · rcases hr : retryO o with ⟨r, n⟩
        have hn := retryO_count_le o r n hr
        cases r with
        | error e => exact hn
        | ok res =>
          simp only []
          split_ifs <;> exact hn
      · simp
      · simp
  · intro start size srcSize o res hpos hres hst
    rw [installFetch_pos_eq start size srcSize o hpos]
    have hro : retryO o = (.ok res, 1) := by
      unfold retryO
      rw [hres]
    unfold fetchCheck
    rw [hro]
    simp [hst]

/-- Witness for `retry_once_spec`: a transport that immediately returns a
non-OK status yields a hard failure after exactly one invocation, both
for the catalog fetch and for a ranged root fetch. -/
theorem retry_once_spec_witness :
    requestPackages (fun _ => .ok ⟨500, none, "x"⟩)
        = (.error "Invalid response status", 1)
      ∧ (installFetch (some (some 0, some 4)) 9
          (fun _ => .ok ⟨500, none, "x"⟩)).2.2 = 1 :=
  ⟨retry_once_spec.2.1 (fun _ => .ok ⟨500, none, "x"⟩) ⟨500, none, "x"⟩ rfl
      (by decide),
    (retry_once_spec.2.2.2 0 4 9 (fun _ => .ok ⟨500, none, "x"⟩)
      ⟨500, none, "x"⟩ (by norm_num) rfl (by decide)).2⟩

/-!
## Cleanup (`src/manager.ts`: `_packageDirectories`, `isObsolete`,
`remove`, `cleanup`)

The filesystem under the manager root is modelled as the list of entries
`readdir` sees, each carrying whether it is a directory, whether the
package's meta directory exists, and whether a stray temp directory
exists.  The loaded catalog is the list of known package names.
-/

structure DirEntry where
  name : String
  isDir : Bool
  hasMeta : Bool
  hasTmp : Bool
deriving DecidableEq

/-- A dotted (reserved) name: `name.startsWith('.')`. -/
def dotted (s : String) : Bool :=
  match s.data with
  | c :: _ => c == '.'
  | [] => false

/-- Insertion into a sorted list (modelling `Array.prototype.sort`'s
lexicographic default order on the returned names). -/
def insertSorted (x : String) : List String → List String
  | [] => [x]
  | y :: ys => if x ≤ y then x :: y :: ys else y :: insertSorted x ys

/-- Lexicographic sort by insertion. -/
def sortStrings (l : List String) : List String := l.foldr insertSorted []

/-- `Manager._packageDirectories`: names of non-dotted directories,
sorted. -/
def packageDirectories (fs : List DirEntry) : List String :=
  sortStrings ((fs.filter fun e => !(dotted e.name) && e.isDir).map
    fun e => e.name)

/-- `Manager.isObsolete`: not dotted, not a catalog package name, and the
package's meta directory exists. -/
def isObsolete (cat : List String) (fs : List DirEntry) (pkg : String) :
    Bool :=
  !(dotted pkg) && !(cat.contains pkg)
    && (fs.any fun e => e.name == pkg && e.hasMeta)

/-- The observable actions of `cleanup`/`remove`. -/
inductive CleanupAct where
  | rmTmpDir (pkg : String)
  | evBefore (pkg : String)
  | rmMetaDir (pkg : String)
  | rmPkgDir (pkg : String)
  | evAfter (pkg : String) (removed : Bool)
deriving DecidableEq

/-- `Manager.remove`: nothing to do when the directory is absent; else
remove the meta directory first, then the package directory. -/
def removeFs (fs : List DirEntry) (pkg : String) :
    List DirEntry × Bool × List CleanupAct :=
  if fs.any fun e => e.name == pkg then
    (fs.filter fun e => !(e.name == pkg), true,
      [.rmMetaDir pkg, .rmPkgDir pkg])
  else (fs, false, [])

/-- One iteration of the `cleanup` loop: remove any temp directory of the
visited package, then, if obsolete, report and remove it. -/
def cleanupStep (cat : List String)
    (acc : List DirEntry × List CleanupAct × List (String × Bool))
    (pkg : String) :
    List DirEntry × List CleanupAct × List (String × Bool) :=
  let fs1 := acc.1.map fun e =>
    if e.name == pkg then {e with hasTmp := false} else e
  let acts1 := acc.2.1 ++ [.rmTmpDir pkg]
  if isObsolete cat fs1 pkg then
    let r := removeFs fs1 pkg
    (r.1, acts1 ++ [.evBefore pkg] ++ r.2.2 ++ [.evAfter pkg r.2.1],
      acc.2.2 ++ [(pkg, r.2.1)])
  else (fs1, acts1, acc.2.2)

/-- `Manager.cleanup`: iterate the package directories listed at entry,
threading the filesystem. -/
def cleanup (cat : List String) (fs : List DirEntry) :
    List DirEntry × List CleanupAct × List (String × Bool) :=
  (packageDirectories fs).foldl (cleanupStep cat) (fs, [], [])

/-! ### Cleanup lemmas (claim C8) -/

theorem any_map_congr {f : DirEntry → DirEntry} (P : DirEntry → Bool)
    (h : ∀ e, P (f e) = P e) :
    ∀ fs : List DirEntry, ((fs.map f).any P) = fs.any P
  | [] => rfl
  | e :: fs => by
    simp only [List.map_cons, List.any_cons, h e, any_map_congr P h fs]

theorem any_filter_ne (pkg q : String) (h : (q == pkg) = false)
    (P : DirEntry → Bool) (hP : ∀ e, P e = true → e.name = q) :
    ∀ fs : List DirEntry,
      (((fs.filter fun e => !(e.name == pkg)).any P)) = fs.any P
  | [] => rfl
  | e :: fs => by
    by_cases hep : (e.name == pkg) = true
    · have hPe : P e = false := by
        cases hPe : P e with
        | false => rfl
        | true =>
          exfalso
          have h1 : e.name = q := hP e hPe
          have h2 : e.name = pkg := by simpa using hep
          rw [h1] at h2
          subst h2
          simp at h
      simp [hep, hPe, any_filter_ne pkg q h P hP fs]
    · have hep2 : (e.name == pkg) = false := by simpa using hep
      simp [hep2, any_filter_ne pkg q h P hP fs]

theorem perm_insertSorted (x : String) :
    ∀ l : List String, List.Perm (insertSorted x l) (x :: l)
  | [] => List.Perm.refl _
  | y :: ys => by
    unfold insertSorted
    by_cases h : x ≤ y
    · rw [if_pos h]
    · rw [if_neg h]
      exact ((perm_insertSorted x ys).cons y).trans (List.Perm.swap x y ys)

theorem perm_sortStrings : ∀ l : List String, List.Perm (sortStrings l) l
  | [] => List.Perm.refl _
  | x :: l => by
    unfold sortStrings
    simp only [List.foldr_cons]
    exact (perm_insertSorted x _).trans ((perm_sortStrings l).cons x)

theorem packageDirectories_nodup (fs : List DirEntry)
    (h : (fs.map DirEntry.name).Nodup) :
    (packageDirectories fs).Nodup := by
  unfold packageDirectories
  rw [(perm_sortStrings _).nodup_iff]
  exact h.sublist (List.Sublist.map DirEntry.name (List.filter_sublist fs))

theorem mem_packageDirectories (fs : List DirEntry) (pkg : String) :
    pkg ∈ packageDirectories fs
      ↔ ∃ e ∈ fs, e.name = pkg ∧ (!(dotted e.name) && e.isDir) = true := by
  unfold packageDirectories
  rw [(perm_sortStrings _).mem_iff]
  simp only [List.mem_map, List.mem_filter]
  constructor
  · rintro ⟨e, ⟨he, hp⟩, rfl⟩
    exact ⟨e, he, rfl, hp⟩
  · rintro ⟨e, he, rfl, hp⟩
    exact ⟨e, ⟨he, hp⟩, rfl⟩

theorem cleanupFold_spec (cat : List String) (fs0 : List DirEntry) :
    ∀ (dirs : List String) (fs : List DirEntry) (acts : List CleanupAct)
      (rem : List (String × Bool)),
      dirs.Nodup →
      (∀ pkg ∈ dirs,
        (fs.any fun e => e.name == pkg && e.hasMeta)
            = (fs0.any fun e => e.name == pkg && e.hasMeta)
        ∧ (fs.any fun e => e.name == pkg)
            = (fs0.any fun e => e.name == pkg)) →
      (∀ pkg ∈ dirs, (fs0.any fun e => e.name == pkg) = true) →
      ∃ fsF, dirs.foldl (cleanupStep cat) (fs, acts, rem)
        = (fsF,
           acts ++ (dirs.flatMap fun pkg =>
             .rmTmpDir pkg ::
               (if isObsolete cat fs0 pkg then
                 [.evBefore pkg, .rmMetaDir pkg, .rmPkgDir pkg,
                  .evAfter pkg true]
               else [])),
           rem ++ ((dirs.filter fun pkg => isObsolete cat fs0 pkg).map
             fun pkg => (pkg, true)))
  | [], fs, acts, rem, _, _, _ => ⟨fs, by simp⟩
  | pkg :: rest, fs, acts, rem, hnd, hinv, hpres => by
    obtain ⟨hpk, hnd'⟩ := List.nodup_cons.mp hnd
    have hclear : ∀ q : String,
        (((fs.map fun e =>
            if e.name == pkg then {e with hasTmp := false} else e).any
          fun e => e.name == q && e.hasMeta)
            = (fs.any fun e => e.name == q && e.hasMeta))
        ∧ (((fs.map fun e =>
            if e.name == pkg then {e with hasTmp := false} else e).any
          fun e => e.name == q)
            = (fs.any fun e => e.name == q)) := by
      intro q
      constructor
      · refine any_map_congr _ (fun e => ?_) fs
        by_cases he : (e.name == pkg) = true <;> simp [he]
      · refine any_map_congr _ (fun e => ?_) fs
        by_cases he : (e.name == pkg) = true <;> simp [he]
    have hMeta1 := (hclear pkg).1.trans
      (hinv pkg (List.mem_cons_self pkg rest)).1
    have hName1 := (hclear pkg).2.trans
      (hinv pkg (List.mem_cons_self pkg rest)).2
    have hobs : isObsolete cat
        (fs.map fun e =>
          if e.name == pkg then {e with hasTmp := false} else e) pkg
        = isObsolete cat fs0 pkg := by
      unfold isObsolete
      rw [hMeta1]
    simp only [List.foldl_cons, cleanupStep, hobs]
    cases hob : isObsolete cat fs0 pkg with
    | true =>
      rw [if_pos rfl]
      have hfind : ((fs.map fun e =>
          if e.name == pkg then {e with hasTmp := false} else e).any
          fun e => e.name == pkg) = true :=
        hName1.trans (hpres pkg (List.mem_cons_self pkg rest))
      simp only [removeFs, hfind, if_pos rfl]
      have hinv' : ∀ q ∈ rest,
          ((((fs.map fun e =>
              if e.name == pkg then {e with hasTmp := false} else e).filter
                fun e => !(e.name == pkg)).any
              fun e => e.name == q && e.hasMeta)
            = (fs0.any fun e => e.name == q && e.hasMeta))
          ∧ ((((fs.map fun e =>
              if e.name == pkg then {e with hasTmp := false} else e).filter
                fun e => !(e.name == pkg)).any
              fun e => e.name == q)
            = (fs0.any fun e => e.name == q)) := by
        intro q hq
        have hqp : (q == pkg) = false := by
          rw [beq_eq_false_iff_ne]
          intro he
          exact hpk (he ▸ hq)
        constructor
        · rw [any_filter_ne pkg q hqp _ (fun e he => by
            simpa using (Bool.and_eq_true_iff.mp he).1)]
          exact (hclear q).1.trans (hinv q (List.mem_cons_of_mem pkg hq)).1
        · rw [any_filter_ne pkg q hqp _ (fun e he => by simpa using he)]
          exact (hclear q).2.trans (hinv q (List.mem_cons_of_mem pkg hq)).2
      obtain ⟨fsF, heq⟩ := cleanupFold_spec cat fs0 rest _ _ _ hnd'
        hinv' (fun q hq => hpres q (List.mem_cons_of_mem pkg hq))
      refine ⟨fsF, heq.trans ?_⟩
      rw [Prod.mk.injEq, Prod.mk.injEq]
      refine ⟨rfl, ?_, ?_⟩
      · simp [List.flatMap_cons, hob]
      · simp [List.filter_cons, hob]
    | false =>
      rw [if_neg (by simp)]
      have hinv' : ∀ q ∈ rest,
          (((fs.map fun e =>
              if e.name == pkg then {e with hasTmp := false} else e).any
              fun e => e.name == q && e.hasMeta)
            = (fs0.any fun e => e.name == q && e.hasMeta))
          ∧ (((fs.map fun e =>
              if e.name == pkg then {e with hasTmp := false} else e).any
              fun e => e.name == q)
            = (fs0.any fun e => e.name == q)) := by
        intro q hq
        exact ⟨(hclear q).1.trans (hinv q (List.mem_cons_of_mem pkg hq)).1,
          (hclear q).2.trans (hinv q (List.mem_cons_of_mem pkg hq)).2⟩
      obtain ⟨fsF, heq⟩ := cleanupFold_spec cat fs0 rest _ _ _ hnd'
        hinv' (fun q hq => hpres q (List.mem_cons_of_mem pkg hq))
      refine ⟨fsF, heq.trans ?_⟩
      rw [Prod.mk.injEq, Prod.mk.injEq]
      refine ⟨rfl, ?_, ?_⟩
      · simp [List.flatMap_cons, hob]
      · simp [List.filter_cons, hob]

/-- Counterexample to C8: a locally-present, non-dotted directory that no
catalog package references is nonetheless NOT removed by `cleanup` when
its metadata subdirectory does not exist (`isObsolete` also requires the
meta directory): the claim as stated requires its removal. -/
theorem cleanup_claim_false :
    (cleanup [] [⟨"foo", true, false, false⟩]).2.2 = []
      ∧ (cleanup [] [⟨"foo", true, false, false⟩]).1
          = [⟨"foo", true, false, false⟩]
      ∧ dotted "foo" = false
      ∧ ([] : List String).contains "foo" = false := by
  refine ⟨rfl, rfl, rfl, rfl⟩

/-- C8 (amended): `cleanup` removes exactly the visited package
directories whose name is not referenced by the loaded catalog, is not
dotted, and whose metadata subdirectory exists — removing the meta
directory before the package directory, with before/after notifications
bracketing each removal — and removes the stray temporary-install
directory of every package directory it visits. -/
theorem cleanup_spec (cat : List String) (fs : List DirEntry)
    (hnd : (fs.map DirEntry.name).Nodup) :
    (cleanup cat fs).2.1 = ((packageDirectories fs).flatMap fun pkg =>
        .rmTmpDir pkg ::
          (if isObsolete cat fs pkg then
            [.evBefore pkg, .rmMetaDir pkg, .rmPkgDir pkg,
             .evAfter pkg true]
          else []))
      ∧ (cleanup cat fs).2.2
        = ((packageDirectories fs).filter fun pkg =>
            isObsolete cat fs pkg).map fun pkg => (pkg, true) := by
  have hpres : ∀ pkg ∈ packageDirectories fs,
      (fs.any fun e => e.name == pkg) = true := by
    intro pkg hpkg
    obtain ⟨e, he, hename, -⟩ := (mem_packageDirectories fs pkg).mp hpkg
    exact List.any_eq_true.mpr ⟨e, he, by simp [hename]⟩
  obtain ⟨fsF, heq⟩ := cleanupFold_spec cat fs (packageDirectories fs)
    fs [] [] (packageDirectories_nodup fs hnd)
    (fun pkg _ => ⟨rfl, rfl⟩) hpres
  unfold cleanup
  rw [heq]
  exact ⟨by simp, by simp⟩

/-- Witness for `cleanup_spec`: one obsolete directory (with meta) and
one catalog-referenced directory. -/
theorem cleanup_spec_witness :
    (cleanup ["keep"]
        [⟨"gone", true, true, false⟩, ⟨"keep", true, true, true⟩]).2.2
      = ((packageDirectories
            [⟨"gone", true, true, false⟩, ⟨"keep", true, true, true⟩]).filter
          fun pkg => isObsolete ["keep"]
            [⟨"gone", true, true, false⟩, ⟨"keep", true, true, true⟩]
            pkg).map fun pkg => (pkg, true) :=
  (cleanup_spec ["keep"]
    [⟨"gone", true, true, false⟩, ⟨"keep", true, true, true⟩]
    (by decide)).2

/-!
## Receipt reading (`src/manager.ts`: `receipt`, `isInstalled`,
`isCurrent`)

`receipt` reads the persisted receipt file and parses it, with
`.catch(() => null)` collapsing every read or parse failure into `null`,
which is then reported as "Package is not installed".  The file read and
the JSON parse are external collaborators, modelled as inputs.
-/

/-- The persisted receipt payload (`IPackageReceipt`). -/
structure IPackageReceiptM where
  name : String
  file : String
  size : Int
  sha256 : String
  source : String
deriving DecidableEq

/-- `readFile(...).then(s => JSON.parse(s)).catch(() => null)`. -/
def receiptRead (file : Except String String)
    (parse : String → Except String IPackageReceiptM) :
    Option IPackageReceiptM :=
  match file with
  | .error _ => none
  | .ok s =>
    match parse s with
    | .error _ => none
    | .ok r => some r

/-- `Manager.receipt`: a null read result is "Package is not installed". -/
def receipt (name : String) (file : Except String String)
    (parse : String → Except String IPackageReceiptM) :
    Except String IPackageReceiptM :=
  match receiptRead file parse with
  | none => .error ("Package is not installed: " ++ name)
  | some r => .ok r

/-- `Manager.isInstalled`: `receipt` in a try/catch. -/
def isInstalled (name : String) (file : Except String String)
    (parse : String → Except String IPackageReceiptM) : Bool :=
  match receipt name file parse with
  | .error _ => false
  | .ok _ => true

/-- `Manager.isCurrent`: `receipt` in a try/catch, then compare the four
identity fields against the catalog package. -/
def isCurrent (pkgName pkgFile : String) (pkgSize : Int)
    (pkgSha256 : String) (file : Except String String)
    (parse : String → Except String IPackageReceiptM) : Bool :=
  match receipt pkgName file parse with
  | .error _ => false
  | .ok d =>
    d.sha256 == pkgSha256 && d.size == pkgSize && d.file == pkgFile
      && d.name == pkgName

/-- C10: every failure to read or parse the receipt file — missing or
unreadable file, or malformed JSON — is reported as "Package is not
installed", and `isInstalled` / `isCurrent` return false rather than
propagating the failure. -/
theorem receipt_failure_spec (name pkgFile : String) (pkgSize : Int)
    (pkgSha256 : String) (file : Except String String)
    (parse : String → Except String IPackageReceiptM)
    (h : (∃ e, file = .error e)
      ∨ (∃ s e, file = .ok s ∧ parse s = .error e)) :
    receipt name file parse
        = .error ("Package is not installed: " ++ name)
      ∧ isInstalled name file parse = false
      ∧ isCurrent name pkgFile pkgSize pkgSha256 file parse = false := by
  have hnone : receiptRead file parse = none := by
    rcases h with ⟨e, he⟩ | ⟨s, e, hs, hp⟩
    · simp [receiptRead, he]
    · simp [receiptRead, hs, hp]
  have hrec : receipt name file parse
      = .error ("Package is not installed: " ++ name) := by
    simp [receipt, hnone]
  exact ⟨hrec, by simp [isInstalled, hrec], by simp [isCurrent, hrec]⟩

/-- Witness for `receipt_failure_spec`: a readable file whose JSON parse
fails still reports "Package is not installed". -/
theorem receipt_failure_spec_witness :
    receipt "p" (.ok "not json") (fun _ => .error "SyntaxError")
        = .error ("Package is not installed: " ++ "p")
      ∧ isInstalled "p" (.ok "not json") (fun _ => .error "SyntaxError")
        = false :=
  ⟨(receipt_failure_spec "p" "f" 1 "h" (.ok "not json")
      (fun _ => .error "SyntaxError")
      (Or.inr ⟨"not json", "SyntaxError", rfl, rfl⟩)).1,
    (receipt_failure_spec "p" "f" 1 "h" (.ok "not json")
      (fun _ => .error "SyntaxError")
      (Or.inr ⟨"not json", "SyntaxError", rfl, rfl⟩)).2.1⟩

end Shockpkg
